import Mathlib

/-!
Shallow embedding of `src/libs/checkpoint/langgraph/store/memory/__init__.py`
(the `InMemoryStore` batch engine) and proofs about it.

Modelling conventions:
* Python JSON-like runtime values are the inductive `Value` (floats/ints as `ℚ`).
* Python `dict`s are insertion-ordered association lists; `defaultdict`
  auto-vivification is modelled explicitly by `alViv` (get-or-insert-default).
* Exceptions (`ValueError`, `TypeError`, `KeyError`) are `Except String`.
* Wall-clock timestamps are a `Nat` parameter `now` passed to `batch`.
* The embedding gateway (`embed_documents` / `embed_query`) and the similarity
  backend chosen by `_cosine_similarity` are function parameters of `batch`,
  mirroring the code's external capability and feature-detected backend.
* Float square root is an abstract parameter `sqrt : ℚ → ℚ` of the two cosine
  implementations; theorems assume only properties real `sqrt` has.
-/

namespace MemStore

/-- Python JSON-like values stored in documents and used in filters. -/
inductive Value where
  | null : Value
  | bool (b : Bool) : Value
  | num (q : ℚ) : Value
  | str (s : String) : Value
  | arr (xs : List Value) : Value
  | obj (fields : List (String × Value)) : Value

/-- A stored document value: Python `dict[str, Any]` (the declared type of
`PutOp.value` and `Item.value`). -/
abbrev Doc := List (String × Value)

/-- Namespace: tuple of string segments. -/
abbrev Ns := List String

/-- Embedding vector. -/
abbrev Vec := List ℚ

/-- First-match lookup in an association list (Python `dict.get` on a
unique-key dict). -/
def alGet {K V : Type} [DecidableEq K] (l : List (K × V)) (k : K) : Option V :=
  match l with
  | [] => none
  | (k', v) :: t => if k' = k then some v else alGet t k

/-- Python `d[k] = v`: replace in place if the key exists (keeping its
position), else append at the end. -/
def alSet {K V : Type} [DecidableEq K] (l : List (K × V)) (k : K) (v : V) :
    List (K × V) :=
  match l with
  | [] => [(k, v)]
  | (k', v') :: t => if k' = k then (k, v) :: t else (k', v') :: alSet t k v

/-- Python `d.pop(k, None)`: drop the key's entry if present. -/
def alPop {K V : Type} [DecidableEq K] (l : List (K × V)) (k : K) :
    List (K × V) :=
  match l with
  | [] => []
  | (k', v') :: t => if k' = k then t else (k', v') :: alPop t k

/-- `defaultdict` access `d[k]`: return the map (vivified if the key was
missing, the fresh default appended at the end) together with the value. -/
def alViv {K V : Type} [DecidableEq K] (l : List (K × V)) (k : K) (d : V) :
    List (K × V) × V :=
  match alGet l k with
  | some v => (l, v)
  | none => (l ++ [(k, d)], d)

/-- Numeric value of a Python `bool` (`True == 1`, `False == 0`). -/
def numOfBool (b : Bool) : ℚ := if b then 1 else 0

mutual

/-- Python `==` on JSON-like values: numbers and booleans compare numerically,
strings/None structurally, lists elementwise with equal length, dicts by equal
size plus key-wise equal values (keys are unique in Python dicts). -/
def pyEq : Value → Value → Bool
  | .null, .null => true
  | .str a, .str b => a == b
  | .bool a, .bool b => a == b
  | .bool a, .num q => numOfBool a == q
  | .num q, .bool b => q == numOfBool b
  | .num a, .num b => a == b
  | .arr xs, .arr ys => pyEqL xs ys
  | .obj fs, .obj gs => fs.length == gs.length && pyEqO fs gs
  | _, _ => false

/-- Elementwise Python `==` on lists. -/
def pyEqL : List Value → List Value → Bool
  | [], [] => true
  | x :: xs, y :: ys => pyEq x y && pyEqL xs ys
  | _, _ => false

/-- Every key of the first dict maps to an equal value in the second. -/
def pyEqO : List (String × Value) → List (String × Value) → Bool
  | [], _ => true
  | (k, v) :: fs, gs =>
    (match alGet gs k with
     | some w => pyEq v w
     | none => false) && pyEqO fs gs

end

/-- Python `float(...)` on a string: optional sign, integer digits, optional
fractional digits (the forms the filter operators can meet). -/
def parseDecimal (s : String) : Option ℚ :=
  let core : String → Option ℚ := fun t =>
    match t.splitOn "." with
    | [a] => (a.toNat?).map (fun n => (n : ℚ))
    | [a, b] =>
      match a, b with
      | "", "" => none
      | _, _ =>
        match (if a = "" then some 0 else a.toNat?),
              (if b = "" then some 0 else b.toNat?) with
        | some n, some f => some ((n : ℚ) + (f : ℚ) / ((10 : ℚ) ^ b.length))
        | _, _ => none
    | _ => none
  if s.startsWith "-" then (core (s.drop 1)).map (fun q => -q)
  else core s

/-- Python `float(value)` coercion: numbers pass through, booleans become
`1.0`/`0.0`, numeric strings parse; `None`, lists and dicts raise `TypeError`
(modelled as `none`). -/
def pyFloat : Value → Option ℚ
  | .num q => some q
  | .bool b => some (numOfBool b)
  | .str s => parseDecimal s
  | _ => none

/-- `_apply_operator`: one `$`-operator applied to the current stored value. -/
def apply_operator (value : Value) (op : String) (opValue : Value) :
    Except String Bool :=
  if op = "$eq" then .ok (pyEq value opValue)
  else if op = "$gt" then
    match pyFloat value, pyFloat opValue with
    | some a, some b => .ok (decide (a > b))
    | _, _ => .error "could not convert operand to float"
  else if op = "$gte" then
    match pyFloat value, pyFloat opValue with
    | some a, some b => .ok (decide (a ≥ b))
    | _, _ => .error "could not convert operand to float"
  else if op = "$lt" then
    match pyFloat value, pyFloat opValue with
    | some a, some b => .ok (decide (a < b))
    | _, _ => .error "could not convert operand to float"
  else if op = "$lte" then
    match pyFloat value, pyFloat opValue with
    | some a, some b => .ok (decide (a ≤ b))
    | _, _ => .error "could not convert operand to float"
  else if op = "$ne" then .ok (!pyEq value opValue)
  else .error ("Unsupported operator: " ++ op)

/-- Python `key.startswith("$")`: the key's first character is `$`. -/
def startsDollar (k : String) : Bool :=
  match k.data with
  | [] => false
  | c :: _ => c == '$'

mutual

/-- `_compare_values`: recursive structural comparison of a stored value
against a filter value. -/
def compare_values (iv : Value) (fv : Value) : Except String Bool :=
  match fv with
  | .obj fs =>
    if fs.any (fun p => startsDollar p.1) then
      operatorAll iv fs
    else
      match iv with
      | .obj ifs => compareKeys ifs fs
      | _ => .ok false
  | .arr fl =>
    match iv with
    | .arr il =>
      if il.length = fl.length then compareElems il fl else .ok false
    | _ => .ok false
  | _ => .ok (pyEq iv fv)

/-- Python `all(...)` over the operator mapping: short-circuits on the first
`False`, propagates the first raised error. -/
def operatorAll (iv : Value) : List (String × Value) → Except String Bool
  | [] => .ok true
  | (k, w) :: rest =>
    match apply_operator iv k w with
    | .error e => .error e
    | .ok b => if b then operatorAll iv rest else .ok false

/-- Python `all(...)` over a non-`$` filter mapping: each filter key recurses
against `item_value.get(key)` (missing keys give `None`). -/
def compareKeys (ifs : List (String × Value)) :
    List (String × Value) → Except String Bool
  | [] => .ok true
  | (k, w) :: rest =>
    match compare_values ((alGet ifs k).getD .null) w with
    | .error e => .error e
    | .ok b => if b then compareKeys ifs rest else .ok false

/-- Python `all(...)` over zipped sequence elements. -/
def compareElems : List Value → List Value → Except String Bool
  | iv :: il, fv :: fl =>
    match compare_values iv fv with
    | .error e => .error e
    | .ok b => if b then compareElems il fl else .ok false
  | _, _ => .ok true

end

/-- The `filter_func` of `_filter_items`: a top-level filter is a mapping of
field name to filter value, all fields must match; an empty filter matches
everything. -/
def filter_func (filt : List (String × Value)) (doc : Doc) :
    Except String Bool :=
  match filt with
  | [] => .ok true
  | _ => compareKeys doc filt

/-- A namespace match condition (`MatchCondition` from the base library:
a `match_type` string plus a path of segments or `*` wildcards). -/
structure MatchCond where
  matchType : String
  path : List String

/-- `_does_match`: whether a namespace matches one condition.  NOTE: the
length guard runs before the `match_type` dispatch, so an unsupported
`match_type` raises only when the namespace is at least as long as the path. -/
def does_match (cond : MatchCond) (key : Ns) : Except String Bool :=
  if key.length < cond.path.length then .ok false
  else if cond.matchType = "prefix" then
    .ok ((List.zip key cond.path).all fun p => p.2 == "*" || p.1 == p.2)
  else if cond.matchType = "suffix" then
    .ok ((List.zip key.reverse cond.path.reverse).all
      fun p => p.2 == "*" || p.1 == p.2)
  else .error ("Unsupported match type: " ++ cond.matchType)

/-- Python `all(_does_match(c, ns) for c in conds)`: lazy, short-circuiting. -/
def allMatch (conds : List MatchCond) (ns : Ns) : Except String Bool :=
  match conds with
  | [] => .ok true
  | c :: rest =>
    match does_match c ns with
    | .error e => .error e
    | .ok b => if b then allMatch rest ns else .ok false

/-- A stored document (`Item` from the base library; timestamps as ticks). -/
structure Item where
  value : Doc
  key : String
  ns : Ns
  created_at : Nat
  updated_at : Nat

/-- The mutable state: `_data : ns → key → Item` (source of truth) and
`inmem_store : ns → key → field path → vector` (the vector index).  Both are
insertion-ordered `defaultdict`s. -/
structure Store where
  data : List (Ns × List (String × Item))
  inmem_store : List (Ns × List (String × List (String × Vec)))

/-- A store as freshly constructed: both maps empty. -/
def emptyStore : Store := ⟨[], []⟩

/-- A search operation (`SearchOp`).  `nsPre` is its namespace path filter. -/
structure SearchOp where
  nsPre : Ns
  filt : List (String × Value)
  query : Option String
  limit : Nat
  offset : Nat

/-- A put operation's payload (`PutOp`): `value = none` is a delete;
`index = some false` disables indexing (`op.index is not False`). -/
structure PutRec where
  ns : Ns
  key : String
  value : Option Doc
  index : Option Bool

/-- The operation union handled by `_prepare_ops`. -/
inductive Op where
  | get (ns : Ns) (key : String) : Op
  | put (p : PutRec) : Op
  | search (op : SearchOp) : Op
  | listNs (conds : List MatchCond) (maxDepth : Option Nat)
      (limit offset : Nat) : Op

/-- A search hit: an item plus the optional similarity score metadata. -/
structure SearchItem where
  ns : Ns
  key : String
  value : Doc
  created_at : Nat
  updated_at : Nat
  score : Option ℚ

/-- One slot of the batch result array (`Result`); `null` is Python `None`
(put results and missing gets). -/
inductive BResult where
  | null : BResult
  | item (it : Item) : BResult
  | found (xs : List SearchItem) : BResult
  | nss (l : List Ns) : BResult

/-- Truthiness of `op.query` (Python: `None` and `""` are falsy). -/
def queryTruthy : Option String → Bool
  | none => false
  | some s => !(s = "")

/-- Field-path specifier, mirroring `__tokenized_fields`: the `__root__`
marker or a tokenized key path. -/
inductive FieldSpec where
  | root : FieldSpec
  | path (segs : List String) : FieldSpec

/-- Modelled from the spec: the configured embedding capability.  `fields` is
the `__tokenized_fields` list of `(path string, tokenized path)` pairs built
in `__init__` by `tokenize_path` (which lives in `langgraph.store.base`,
outside `src/`). -/
structure EmbedConfig where
  fields : List (String × FieldSpec)

/-- Modelled from the spec: a crude stringification of a stored value, the
"entire stored value, stringified" for the `__root__` specifier
(`get_text_at_path` lives in `langgraph.store.base`, outside `src/`). -/
def stringifyV : Value → String
  | .null => "None"
  | .bool b => if b then "True" else "False"
  | .num q => toString q
  | .str s => s
  | .arr xs => "[" ++ String.intercalate ", " (xs.map stringifyVShallow) ++ "]"
  | .obj fs =>
    "\x7b" ++
      String.intercalate ", " (fs.map fun p => p.1 ++ ": " ++ stringifyVShallow p.2)
      ++ "\x7d"
where
  /-- One-level stringification used inside containers. -/
  stringifyVShallow : Value → String
  | .null => "None"
  | .bool b => if b then "True" else "False"
  | .num q => toString q
  | .str s => s
  | .arr _ => "[...]"
  | .obj _ => "\x7b...\x7d"

/-- Modelled from the spec: `get_text_at_path` (from `langgraph.store.base`,
not in `src/`) — each specifier yields zero, one or several text fragments:
`__root__` yields the whole value stringified; a key path walks object
fields, a string leaf yields one fragment and a list yields one fragment per
string element. -/
def get_text_at_path (d : Doc) : FieldSpec → List String
  | .root => [stringifyV (.obj d)]
  | .path segs => walkPath (.obj d) segs
where
  /-- Walk a key path inside a value. -/
  walkPath : Value → List String → List String
  | .str s, [] => [s]
  | .arr xs, [] =>
    xs.filterMap (fun x => match x with | .str s => some s | _ => none)
  | _, [] => []
  | .obj fs, k :: rest =>
    match alGet fs k with
    | some w => walkPath w rest
    | none => []
  | _, _ :: _ => []

/-- A vector-index destination `(namespace, key, field path)`. -/
abbrev Dest := Ns × String × String

/-- Record one destination for a text in the `to_embed` insertion-ordered
dict (`defaultdict(list)`): append to the text's list, or append a new
`(text, [dest])` entry at the end. -/
def toEmbedAdd (m : List (String × List Dest)) (t : String) (d : Dest) :
    List (String × List Dest) :=
  match m with
  | [] => [(t, [d])]
  | (t', ds) :: rest =>
    if t' = t then (t', ds ++ [d]) :: rest
    else (t', ds) :: toEmbedAdd rest t d

/-- The destinations one put contributes, in `_extract_texts`'s order:
multi-fragment extractions fan out into `path.0`, `path.1`, …; a single
fragment keeps the plain path. -/
def extractOp (cfg : EmbedConfig) (op : PutRec)
    (m : List (String × List Dest)) : List (String × List Dest) :=
  match op.value, op.index with
  | some v, idx =>
    if idx = some false then m
    else
      cfg.fields.foldl
        (fun m pf =>
          let texts := get_text_at_path v pf.2
          match texts with
          | [] => m
          | [t] => toEmbedAdd m t (op.ns, op.key, pf.1)
          | _ =>
            (texts.enum).foldl
              (fun m ti =>
                toEmbedAdd m ti.2 (op.ns, op.key, pf.1 ++ "." ++ toString ti.1))
              m)
        m
  | none, _ => m

/-- `_extract_texts`: the unique texts of all pending puts, each with its
list of destinations. -/
def extract_texts (cfg : Option EmbedConfig)
    (put_ops : List ((Ns × String) × PutRec)) :
    List (String × List Dest) :=
  match cfg with
  | some c =>
    match put_ops with
    | [] => []
    | _ => put_ops.foldl (fun m p => extractOp c p.2 m) []
  | none => []

/-- Set `inmem_store[ns][key][path] = vec` through two `defaultdict` levels. -/
def inmSet (inm : List (Ns × List (String × List (String × Vec))))
    (ns : Ns) (key path : String) (vec : Vec) :
    List (Ns × List (String × List (String × Vec))) :=
  let p1 := alViv inm ns []
  let p2 := alViv p1.2 key []
  alSet p1.1 ns (alSet p2.1 key (alSet p2.2 path vec))

/-- `_insertinmem_store`: flatten all destinations, check the gateway's
vector count against the number of destinations, then write each vector. -/
def insertinmem_store (to_embed : List (String × List Dest))
    (embeddings : List Vec)
    (inm : List (Ns × List (String × List (String × Vec)))) :
    Except String (List (Ns × List (String × List (String × Vec)))) :=
  let indices := (to_embed.map Prod.snd).flatten
  if indices.length ≠ embeddings.length then
    .error ("Number of embeddings (" ++ toString embeddings.length ++
      ") does not match number of indices (" ++ toString indices.length ++ ")")
  else
    .ok ((List.zip embeddings indices).foldl
      (fun inm p => inmSet inm p.2.1 p.2.2.1 p.2.2.2 p.1) inm)

/-- One iteration of `_apply_put_ops`: a delete pops the document and all
its vector entries (vivifying both namespace slots); an upsert writes a
fresh `Item` with fresh timestamps. -/
def apply_put (now : Nat) (st : Store) (p : (Ns × String) × PutRec) : Store :=
  let ns := p.1.1
  let key := p.1.2
  match p.2.value with
  | none =>
    let d := alViv st.data ns []
    let v := alViv st.inmem_store ns []
    ⟨alSet d.1 ns (alPop d.2 key), alSet v.1 ns (alPop v.2 key)⟩
  | some value =>
    let d := alViv st.data ns []
    { st with data := alSet d.1 ns (alSet d.2 key ⟨value, key, ns, now, now⟩) }

/-- `_apply_put_ops`: apply every collapsed put in dict order. -/
def apply_put_ops (now : Nat) (st : Store)
    (put_ops : List ((Ns × String) × PutRec)) : Store :=
  put_ops.foldl (apply_put now) st

/-- The candidate scan of `_filter_items` over one namespace's key dict:
apply `filter_func`, and for truthy queries read (vivifying) the key's
vector dict — `None` or an empty dict contributes `(item, [])`. -/
def filterItemsKeys (op : SearchOp)
    (ns : Ns)
    (inm : List (Ns × List (String × List (String × Vec))))
    (items : List (String × Item)) :
    Except String
      (List (Ns × List (String × List (String × Vec))) ×
        List (Item × List Vec)) :=
  match items with
  | [] => .ok (inm, [])
  | (key, it) :: rest =>
    match filter_func op.filt it.value with
    | .error e => .error e
    | .ok b =>
      if b then
        if queryTruthy op.query then
          let p := alViv inm ns []
          let cand : Item × List Vec :=
            match alGet p.2 key with
            | some embs =>
              if embs.isEmpty then (it, []) else (it, embs.map Prod.snd)
            | none => (it, [])
          match filterItemsKeys op ns p.1 rest with
          | .error e => .error e
          | .ok r => .ok (r.1, cand :: r.2)
        else
          match filterItemsKeys op ns inm rest with
          | .error e => .error e
          | .ok r => .ok (r.1, (it, []) :: r.2)
      else
        match filterItemsKeys op ns inm rest with
        | .error e => .error e
        | .ok r => .ok r

/-- `_filter_items`: walk every namespace of `_data` in insertion order,
keep those with the operation's namespace path as leading segments, and
gather filtered candidates with their stored vectors. -/
def filterItemsNss (op : SearchOp)
    (inm : List (Ns × List (String × List (String × Vec))))
    (nss : List (Ns × List (String × Item))) :
    Except String
      (List (Ns × List (String × List (String × Vec))) ×
        List (Item × List Vec)) :=
  match nss with
  | [] => .ok (inm, [])
  | (ns, items) :: rest =>
    if ns.take op.nsPre.length = op.nsPre then
      match filterItemsKeys op ns inm items with
      | .error e => .error e
      | .ok r =>
        match filterItemsNss op r.1 rest with
        | .error e => .error e
        | .ok r2 => .ok (r2.1, r.2 ++ r2.2)
    else
      match filterItemsNss op inm rest with
      | .error e => .error e
      | .ok r => .ok r

/-- `_filter_items`, threading the vector index through its `defaultdict`
vivifications. -/
def filter_items (st : Store) (op : SearchOp) :
    Except String (Store × List (Item × List Vec)) :=
  match filterItemsNss op st.inmem_store st.data with
  | .error e => .error e
  | .ok r => .ok ({ st with inmem_store := r.1 }, r.2)

/-- Python tuple-of-strings `<=`: lexicographic segment comparison. -/
def nsLe : Ns → Ns → Bool
  | [], _ => true
  | _ :: _, [] => false
  | a :: xs, b :: ys => if a = b then nsLe xs ys else decide (a < b)

/-- The same lexicographic order as a decidable relation, for the stable
sort (Python `sorted` is modelled by the stable `List.insertionSort`). -/
def nsLeP (a b : Ns) : Prop := nsLe a b = true

instance : DecidableRel nsLeP := fun a b =>
  inferInstanceAs (Decidable (nsLe a b = true))

/-- The condition-filtering stage of `_handle_list_namespaces`: with no
conditions every namespace is kept; otherwise the Python list comprehension
evaluates `all(_does_match(c, ns) ...)` per namespace, propagating the first
raised error. -/
def filteredNss (conds : List MatchCond) (nss : List Ns) :
    Except String (List Ns) :=
  match conds with
  | [] => .ok nss
  | _ =>
    nss.foldr
      (fun ns acc =>
        match allMatch conds ns with
        | .error e => .error e
        | .ok b =>
          match acc with
          | .error e => .error e
          | .ok l => .ok (if b then ns :: l else l))
      (.ok [])

/-- `_handle_list_namespaces`: filter the `_data` namespaces by all match
conditions, optionally truncate to `max_depth` and deduplicate, sort, and
take the `[offset, offset+limit)` window. -/
def handle_list_namespaces (st : Store) (conds : List MatchCond)
    (maxDepth : Option Nat) (limit offset : Nat) :
    Except String (List Ns) :=
  match filteredNss conds (st.data.map Prod.fst) with
  | .error e => .error e
  | .ok nss =>
    let sortedNss :=
      match maxDepth with
      | some d =>
        List.insertionSort nsLeP ((nss.map (fun ns : Ns => ns.take d)).eraseDups)
      | none => List.insertionSort nsLeP nss
    .ok ((sortedNss.drop offset).take limit)

/-- `_prepare_ops`: classify the batch.  Gets and ListNamespaces are resolved
immediately (a Get vivifies its namespace slot in `_data`); puts collapse
into a last-write-wins dict; searches gather their candidates now and leave
a pending `None` slot. -/
def prepare_ops (st : Store) (ops : List Op) :
    Except String
      (List BResult × List ((Ns × String) × PutRec) ×
        List (Nat × SearchOp × List (Item × List Vec)) × Store) :=
  go st ops 0 [] [] []
where
  /-- Process operations left to right, keeping the running result array,
  put dict and pending searches. -/
  go (st : Store) (ops : List Op) (i : Nat) (results : List BResult)
      (put_ops : List ((Ns × String) × PutRec))
      (search_ops : List (Nat × SearchOp × List (Item × List Vec))) :
      Except String
        (List BResult × List ((Ns × String) × PutRec) ×
          List (Nat × SearchOp × List (Item × List Vec)) × Store) :=
    match ops with
    | [] => .ok (results, put_ops, search_ops, st)
    | op :: rest =>
      match op with
      | .get ns key =>
        let p := alViv st.data ns []
        let r : BResult :=
          match alGet p.2 key with
          | some it => .item it
          | none => .null
        go { st with data := p.1 } rest (i + 1) (results ++ [r]) put_ops
          search_ops
      | .search sop =>
        match filter_items st sop with
        | .error e => .error e
        | .ok r =>
          go r.1 rest (i + 1) (results ++ [.null]) put_ops
            (search_ops ++ [(i, sop, r.2)])
      | .listNs conds maxDepth limit offset =>
        match handle_list_namespaces st conds maxDepth limit offset with
        | .error e => .error e
        | .ok l =>
          go st rest (i + 1) (results ++ [.nss l]) put_ops search_ops
      | .put p =>
        go st rest (i + 1) (results ++ [.null])
          (alSet put_ops (p.ns, p.key) p) search_ops

/-- Dot product `sum(a * b for a, b in zip(X, y))`. -/
def dotQ (x y : Vec) : ℚ := (List.zipWith (fun a b => a * b) x y).sum

/-- Squared Euclidean norm `sum(a * a for a in x)`. -/
def normSq (x : Vec) : ℚ := (x.map (fun a => a * a)).sum

/-- IEEE division as numpy performs it elementwise: dividing by zero yields
`nan`/`inf`, modelled as `none`. -/
def npDiv (a b : ℚ) : Option ℚ := if b = 0 then none else some (a / b)

/-- The numpy branch of `_cosine_similarity`: rows with zero norm keep the
zero-initialised entry; the masked rows divide by `Y_norm * X_norm`, which
divides by zero when the query norm is zero.  `sqrt` abstracts float
`np.linalg.norm`'s square root. -/
def cosine_similarity_np (sqrt : ℚ → ℚ) (X : Vec) (Y : List Vec) :
    List (Option ℚ) :=
  let Xn := sqrt (normSq X)
  Y.map (fun y =>
    let Yn := sqrt (normSq y)
    if Yn ≠ 0 then npDiv (dotQ y X) (Yn * Xn) else some 0)

/-- The pure-Python fallback branch of `_cosine_similarity`: the guard
`norm1 > 0 and norm2 > 0` routes zero-norm pairs to `0.0`. -/
def cosine_similarity_fallback (sqrt : ℚ → ℚ) (X : Vec) (Y : List Vec) :
    List ℚ :=
  Y.map (fun y =>
    let dp := dotQ X y
    let n1 := sqrt (normSq X)
    let n2 := sqrt (normSq y)
    if 0 < n1 ∧ 0 < n2 then dp / (n1 * n2) else 0)

/-- The max-pooling walk of `_batch_search` over the score-sorted list:
`ix = len(seen)` before insertion, stop at `offset + limit` distinct
documents, keep those with `offset <= ix`. -/
def maxPool (off lim : Nat) :
    List (ℚ × Item) → List (Ns × String) → List (ℚ × Item)
  | [], _ => []
  | (s, it) :: rest, seen =>
    let k := (it.ns, it.key)
    if k ∈ seen then maxPool off lim rest seen
    else
      let ix := seen.length
      if ix ≥ off + lim then []
      else if ix < off then maxPool off lim rest (k :: seen)
      else (s, it) :: maxPool off lim rest (k :: seen)

/-- Render a kept `(score, item)` pair with its score metadata. -/
def toSearchItemScored (p : ℚ × Item) : SearchItem :=
  ⟨p.2.ns, p.2.key, p.2.value, p.2.created_at, p.2.updated_at, some p.1⟩

/-- Render a candidate without score metadata (query-less search). -/
def toSearchItemPlain (it : Item) : SearchItem :=
  ⟨it.ns, it.key, it.value, it.created_at, it.updated_at, none⟩

/-- Descending order on scored items (`sorted(key=score, reverse=True)`,
which keeps ties in their original relative order, as the stable
`List.insertionSort` does). -/
def scoreGeP (a b : ℚ × Item) : Prop := b.1 ≤ a.1

instance : DecidableRel scoreGeP := fun a b =>
  inferInstanceAs (Decidable (b.1 ≤ a.1))

instance : IsTotal (ℚ × Item) scoreGeP := ⟨fun a b => le_total b.1 a.1⟩

instance : IsTrans (ℚ × Item) scoreGeP := ⟨fun _ _ _ h1 h2 => h2.trans h1⟩

/-- The flattened `(score, document)` pairs of `_batch_search`'s query branch
before sorting: every candidate fans out into one pair per stored vector. -/
def flatScored (cos : Vec → List Vec → List ℚ) (qv : Vec)
    (candidates : List (Item × List Vec)) : List (ℚ × Item) :=
  let flat := candidates.foldr
    (fun c acc => (c.2.map (fun v => (c.1, v))) ++ acc) []
  List.zip (cos qv (flat.map Prod.snd)) (flat.map Prod.fst)

/-- The query branch of `_batch_search` for one search: flatten candidate
vectors, score, sort descending (stably), max-pool, annotate. -/
def searchQueryResult (cos : Vec → List Vec → List ℚ) (qv : Vec)
    (candidates : List (Item × List Vec)) (off lim : Nat) :
    List SearchItem :=
  (maxPool off lim
      (List.insertionSort scoreGeP (flatScored cos qv candidates)) []).map
    toSearchItemScored

/-- `_embed_search_queries`: with an embedding capability configured, embed
every unique truthy query (one gateway call each); otherwise the query dict
stays empty. -/
def embed_search_queries (cfg : Option EmbedConfig) (gwQuery : String → Vec)
    (search_ops : List (Nat × SearchOp × List (Item × List Vec))) :
    List (String × Vec) :=
  match cfg with
  | none => []
  | some _ =>
    match search_ops with
    | [] => []
    | _ =>
      ((search_ops.filterMap (fun s =>
          if queryTruthy s.2.1.query then s.2.1.query else none)).eraseDups).map
        (fun q => (q, gwQuery q))

/-- `_batch_search`: fill each pending search slot.  Empty candidate sets give
`[]`; a truthy query looks its vector up in the query dict (a missing entry is
Python's `KeyError`); otherwise plain pagination. -/
def batch_search (cos : Vec → List Vec → List ℚ)
    (sops : List (Nat × SearchOp × List (Item × List Vec)))
    (qstore : List (String × Vec)) (results : List BResult) :
    Except String (List BResult) :=
  match sops with
  | [] => .ok results
  | (i, op, candidates) :: rest =>
    match candidates with
    | [] => batch_search cos rest qstore (results.set i (.found []))
    | _ =>
      if queryTruthy op.query then
        match alGet qstore (op.query.getD "") with
        | none => .error "KeyError: query embedding missing"
        | some qv =>
          batch_search cos rest qstore
            (results.set i
              (.found (searchQueryResult cos qv candidates op.offset op.limit)))
      else
        batch_search cos rest qstore
          (results.set i
            (.found
              (((candidates.drop op.offset).take op.limit).map
                (fun c => toSearchItemPlain c.1))))

/-- `InMemoryStore.batch`: prepare (resolving reads against current state),
embed and finalize searches, embed unique put texts in one gateway call,
insert vectors, then apply the collapsed puts.  `cfg` is the embedding
configuration, `cos` the feature-selected similarity backend, `gwDocs` and
`gwQuery` the embedding gateway, `now` the wall clock. -/
def batch (cfg : Option EmbedConfig) (cos : Vec → List Vec → List ℚ)
    (gwDocs : List String → List Vec) (gwQuery : String → Vec) (now : Nat)
    (st : Store) (ops : List Op) : Except String (List BResult × Store) :=
  match prepare_ops st ops with
  | .error e => .error e
  | .ok (results, put_ops, search_ops, st1) =>
    let resultsE : Except String (List BResult) :=
      match search_ops with
      | [] => .ok results
      | _ =>
        batch_search cos search_ops
          (embed_search_queries cfg gwQuery search_ops) results
    match resultsE with
    | .error e => .error e
    | .ok results =>
      let to_embed := extract_texts cfg put_ops
      let st2E : Except String Store :=
        match to_embed, cfg with
        | [], _ => .ok st1
        | _, none => .ok st1
        | _, some _ =>
          match insertinmem_store to_embed (gwDocs (to_embed.map Prod.fst))
              st1.inmem_store with
          | .error e => .error e
          | .ok inm => .ok { st1 with inmem_store := inm }
      match st2E with
      | .error e => .error e
      | .ok st2 => .ok (results, apply_put_ops now st2 put_ops)

/-- Look a document up in a store (`_data[ns].get(key)` without the
vivification side effect). -/
def docLookup (st : Store) (ns : Ns) (key : String) : Option Item :=
  match alGet st.data ns with
  | some d => alGet d key
  | none => none

/-- Look a document's vector entries up (all field paths). -/
def vecLookup (st : Store) (ns : Ns) (key : String) :
    Option (List (String × Vec)) :=
  match alGet st.inmem_store ns with
  | some d => alGet d key
  | none => none

/-- How a `Get` result renders an optional document. -/
def renderGet : Option Item → BResult
  | some it => .item it
  | none => .null

/-- Identity of a scored candidate: its document's `(namespace, key)`. -/
def docId (p : ℚ × Item) : Ns × String := (p.2.ns, p.2.key)

/-- Spec-side max pooling: keep each document's first occurrence, skipping
identities already seen. -/
def dedupFirst : List (ℚ × Item) → List (Ns × String) → List (ℚ × Item)
  | [], _ => []
  | p :: rest, seen =>
    if docId p ∈ seen then dedupFirst rest seen
    else p :: dedupFirst rest (docId p :: seen)

/-- All scores a given document contributes to a scored list. -/
def scoresOf (it : Item) (l : List (ℚ × Item)) : List ℚ :=
  (l.filter (fun p => (p.2.ns, p.2.key) = (it.ns, it.key))).map Prod.fst

/-- One segment comparison as the spec words it: a `*` wildcard matches any
segment, otherwise literal equality. -/
def segOk (p k : String) : Bool := p == "*" || k == p

/-- Second definition, following the spec's words, for the refinement proof:
a head (`prefix`-type) condition requires the namespace at least as long as
the path and compares segments left to right by position. -/
def specHeadMatch (path key : Ns) : Bool :=
  decide (path.length ≤ key.length) &&
    (List.range path.length).all
      (fun i => segOk (path.getD i "") (key.getD i ""))

/-- Second definition, following the spec's words: a tail (`suffix`-type)
condition performs the same comparison walking both sequences from the end. -/
def specTailMatch (path key : Ns) : Bool :=
  specHeadMatch path.reverse key.reverse

/-- Spec-worded condition matcher, defined for the two recognised match
types. -/
def specCondMatch (c : MatchCond) (key : Ns) : Bool :=
  if c.matchType = "prefix" then specHeadMatch c.path key
  else specTailMatch c.path key

/-- A condition is well-typed when its `match_type` is one of the two the
code recognises. -/
def CondTyped (c : MatchCond) : Prop :=
  c.matchType = "prefix" ∨ c.matchType = "suffix"

/-- The last `Put` submitted to `(ns, key)` in a batch, if any (a later
occurrence takes precedence). -/
def lastPutIn (ops : List Op) (ns : Ns) (key : String) : Option PutRec :=
  match ops with
  | [] => none
  | op :: rest =>
    match lastPutIn rest ns key with
    | some p => some p
    | none =>
      match op with
      | .put p => if p.ns = ns ∧ p.key = key then some p else none
      | _ => none

/-- Two-level lookup in a namespace-keyed dict of dicts. -/
def al2 {V : Type} (m : List (Ns × List (String × V))) (ns : Ns)
    (key : String) : Option V :=
  match alGet m ns with
  | some nsd => alGet nsd key
  | none => none

/-- A document lookup against a raw data map. -/
def dataLookup (d : List (Ns × List (String × Item))) (ns : Ns)
    (key : String) : Option Item :=
  match alGet d ns with
  | some nsd => alGet nsd key
  | none => none

/-- A vector lookup against a raw vector map. -/
def vecMapLookup (m : List (Ns × List (String × List (String × Vec))))
    (ns : Ns) (key : String) : Option (List (String × Vec)) :=
  match alGet m ns with
  | some nsd => alGet nsd key
  | none => none

/-- Unique keys of an association list (Python dict well-formedness). -/
def NodupKeys {K V : Type} (l : List (K × V)) : Prop :=
  (l.map Prod.fst).Nodup

/-- One dict extends another by auto-vivified empty namespace slots only
(and vivification never duplicates a key). -/
def VivExt {V : Type} (d d' : List (Ns × List (String × V))) : Prop :=
  (∃ ext, d' = d ++ ext ∧ ∀ p ∈ ext, p.2 = []) ∧
    (NodupKeys d → NodupKeys d')

/-- All destinations recorded in a `to_embed` dict. -/
def allDests (m : List (String × List Dest)) : List Dest :=
  (m.map Prod.snd).flatten

/-- Store well-formedness: all dict levels have unique keys. -/
def Store.WF (st : Store) : Prop :=
  NodupKeys st.data ∧ (∀ p ∈ st.data, NodupKeys p.2) ∧
    NodupKeys st.inmem_store ∧ (∀ p ∈ st.inmem_store, NodupKeys p.2) ∧
    (∀ p ∈ st.inmem_store, ∀ q ∈ p.2, NodupKeys q.2)

/-- Invariant 1 of the spec: every vector-index entry with at least one
stored vector belongs to a live document. -/
def VectorsLive (st : Store) : Prop :=
  ∀ ns key pd, vecLookup st ns key = some pd → pd ≠ [] →
    ∃ it, docLookup st ns key = some it

/-- Fixture: index the single field path `f`. -/
def cfgF : EmbedConfig := ⟨[("f", .path ["f"])]⟩

/-- Fixture: a well-behaved gateway returning one vector per submitted
text. -/
def gwOne : List String → List Vec := fun ts => ts.map (fun _ => [1])

/-- Fixture: a gateway whose vectors record each text's position in the
submitted list. -/
def gwIdx : List String → List Vec :=
  fun ts => ts.enum.map (fun p => [(p.1 : ℚ)])

/-- Fixture: trivial similarity backend (the scenarios using it carry no
query). -/
def cos0 : Vec → List Vec → List ℚ := fun _ _ => []

/-- Fixture: trivial query gateway. -/
def gwq0 : String → Vec := fun _ => []

/-- Fixture: a square-root table exact on the inputs the concrete
similarity scenarios produce (`0` and `1`). -/
def sqrtDemo : ℚ → ℚ := fun q => if q = 0 then 0 else 1

/-- Fixture: a store with three namespaces for listing scenarios. -/
def stListDemo : Store :=
  ⟨[(["users", "123"], []), (["accounts", "1"], []), (["users", "9"], [])], []⟩

/-- Fixture: the spec's example condition matching `users/*`. -/
def condUsers : MatchCond := ⟨"prefix", ["users", "*"]⟩

/-- Fixture: a pre-existing document holding `{x: 1}` at `(ns, k)`. -/
def itemV1 : Item := ⟨[("x", .num 1)], "k", ["ns"], 0, 0⟩

/-- Fixture: a store already holding `itemV1`. -/
def stPre : Store := ⟨[(["ns"], [("k", itemV1)])], []⟩

/-- Fixture: a read-then-overwrite batch on the key of `itemV1`. -/
def opsRW : List Op :=
  [.get ["ns"] "k", .put ⟨["ns"], "k", some [("x", .num 2)], none⟩]

/-- Fixture: a document contributing two indexed fragments. -/
def itemA : Item := ⟨[("t", .str "a")], "ka", ["ns"], 0, 0⟩

/-- Fixture: a document contributing one indexed fragment. -/
def itemB : Item := ⟨[("t", .str "b")], "kb", ["ns"], 0, 0⟩

/-- Fixture: candidates where `itemA` owns vectors `[1]` and `[3]` and
`itemB` owns `[2]`. -/
def candsDemo : List (Item × List Vec) := [(itemA, [[1], [3]]), (itemB, [[2]])]

/-- Fixture: a similarity backend scoring each candidate vector by its first
coordinate. -/
def cosDemo : Vec → List Vec → List ℚ := fun _ ys => ys.map (fun y => y.headD 0)

/-- Fixture: the store after writing `(ns, k)` with two indexed fragments
(field paths `f.0`, `f.1`) and then overwriting it with a single-fragment
value (field path `f`), when both batches succeed. -/
def overwriteScenario : Option Store :=
  match batch (some cfgF) cos0 gwIdx gwq0 0 emptyStore
      [.put ⟨["ns"], "k", some [("f", .arr [.str "a", .str "b"])], none⟩] with
  | .ok (_, st1) =>
    match batch (some cfgF) cos0 gwIdx gwq0 1 st1
        [.put ⟨["ns"], "k", some [("f", .str "c")], none⟩] with
    | .ok (_, st2) => some st2
    | .error _ => none
  | .error _ => none

/-- Fixture: first put of the last-write-wins scenario. -/
def c8p1 : PutRec := ⟨["ns"], "k", some [("x", .num 1)], none⟩

/-- Fixture: second (winning) put of the last-write-wins scenario. -/
def c8p2 : PutRec := ⟨["ns"], "k", some [("x", .num 2)], none⟩

/-- Fixture: a batch putting twice to the same `(namespace, key)`. -/
def c8ops : List Op := [.put c8p1, .put c8p2]

/-- Fixture: the store the double-put batch leaves behind. -/
def c8st : Store :=
  ⟨[(["ns"], [("k", ⟨[("x", .num 2)], "k", ["ns"], 5, 5⟩)])], []⟩

/-- Fixture: the store a single `put(ns, k, {y: 3})` batch at time 5 leaves
behind. -/
def c9st1 : Store :=
  ⟨[(["ns"], [("k", ⟨[("y", .num 3)], "k", ["ns"], 5, 5⟩)])], []⟩

/-- Fixture: the store a delete batch against `c9st1` leaves behind: both
namespace slots vivified and empty. -/
def c2st : Store := ⟨[(["ns"], [])], [(["ns"], [])]⟩

section AssocLemmas

variable {K V : Type} [DecidableEq K]

theorem alGet_alSet_self (l : List (K × V)) (k : K) (v : V) :
    alGet (alSet l k v) k = some v := by
  induction l with
  | nil => simp [alSet, alGet]
  | cons p t ih =>
    by_cases h : p.1 = k
    · simp [alSet, alGet, h]
    · simp [alSet, alGet, h, ih]

theorem alGet_alSet_ne (l : List (K × V)) {k k' : K} (v : V) (h : k' ≠ k) :
    alGet (alSet l k v) k' = alGet l k' := by
  induction l with
  | nil => simp [alSet, alGet, Ne.symm h]
  | cons p t ih =>
    by_cases hp : p.1 = k
    · simp [alSet, alGet, hp, Ne.symm h]
    · by_cases hp' : p.1 = k'
      · simp [alSet, alGet, hp, hp', h]
      · simp [alSet, alGet, hp, hp', ih]

theorem alGet_alPop_ne (l : List (K × V)) {k k' : K} (h : k' ≠ k) :
    alGet (alPop l k) k' = alGet l k' := by
  induction l with
  | nil => simp [alPop]
  | cons p t ih =>
    by_cases hp : p.1 = k
    · simp [alPop, alGet, hp, Ne.symm h]
    · by_cases hp' : p.1 = k'
      · simp [alPop, alGet, hp, hp', h]
      · simp [alPop, alGet, hp, hp', ih]

theorem alGet_eq_none_of_not_mem {l : List (K × V)} {k : K}
    (h : k ∉ l.map Prod.fst) : alGet l k = none := by
  induction l with
  | nil => rfl
  | cons p t ih =>
    simp only [List.map_cons, List.mem_cons] at h
    push_neg at h
    have hp : ¬p.1 = k := fun hh => h.1 hh.symm
    simp [alGet, hp, ih h.2]

theorem alGet_alPop_self {l : List (K × V)} {k : K} (h : NodupKeys l) :
    alGet (alPop l k) k = none := by
  induction l with
  | nil => rfl
  | cons p t ih =>
    simp only [NodupKeys, List.map_cons, List.nodup_cons] at h
    by_cases hp : p.1 = k
    · simp only [alPop, if_pos hp]
      exact alGet_eq_none_of_not_mem (hp ▸ h.1)
    · simp only [alPop, if_neg hp, alGet, if_neg hp]
      exact ih h.2

theorem alViv_of_some {l : List (K × V)} {k : K} {v : V} (d : V)
    (h : alGet l k = some v) : alViv l k d = (l, v) := by
  simp [alViv, h]

theorem alViv_of_none {l : List (K × V)} {k : K} (d : V)
    (h : alGet l k = none) : alViv l k d = (l ++ [(k, d)], d) := by
  simp [alViv, h]

theorem alGet_append_left {l l' : List (K × V)} {k : K} {v : V}
    (h : alGet l k = some v) : alGet (l ++ l') k = some v := by
  induction l with
  | nil => simp [alGet] at h
  | cons p t ih =>
    by_cases hp : p.1 = k
    · simp [alGet, hp] at h ⊢; exact h
    · simp [alGet, hp] at h ⊢; exact ih h

theorem alGet_append_right {l l' : List (K × V)} {k : K}
    (h : alGet l k = none) : alGet (l ++ l') k = alGet l' k := by
  induction l with
  | nil => simp [alGet]
  | cons p t ih =>
    by_cases hp : p.1 = k
    · simp [alGet, hp] at h
    · simp [alGet, hp] at h ⊢; exact ih h

theorem map_fst_alSet (l : List (K × V)) (k : K) (v : V) :
    (alSet l k v).map Prod.fst = l.map Prod.fst ∨
      (alSet l k v).map Prod.fst = l.map Prod.fst ++ [k] := by
  induction l with
  | nil => right; simp [alSet]
  | cons p t ih =>
    by_cases hp : p.1 = k
    · left; simp [alSet, hp]
    · rcases ih with h | h
      · left; simp [alSet, hp, h]
      · right; simp [alSet, hp, h]

theorem nodupKeys_alSet {l : List (K × V)} (k : K) (v : V)
    (h : NodupKeys l) : NodupKeys (alSet l k v) := by
  induction l with
  | nil => simp [alSet, NodupKeys]
  | cons p t ih =>
    simp only [NodupKeys, List.map_cons, List.nodup_cons] at h
    by_cases hp : p.1 = k
    · subst hp
      simpa [alSet, NodupKeys] using h
    · have ht := ih h.2
      simp only [alSet, if_neg hp, NodupKeys, List.map_cons,
        List.nodup_cons]
      refine ⟨?_, ht⟩
      rcases map_fst_alSet t k v with he | he
      · rw [he]; exact h.1
      · rw [he]
        simp only [List.mem_append, List.mem_singleton]
        rintro (hm | rfl)
        · exact h.1 hm
        · exact hp rfl

theorem map_fst_alPop_sublist (l : List (K × V)) (k : K) :
    ((alPop l k).map Prod.fst).Sublist (l.map Prod.fst) := by
  induction l with
  | nil => simp [alPop]
  | cons p t ih =>
    by_cases hp : p.1 = k
    · simp only [alPop, if_pos hp, List.map_cons]
      exact (List.sublist_cons_self _ _)
    · simp only [alPop, if_neg hp, List.map_cons]
      exact ih.cons₂ _

theorem nodupKeys_alPop {l : List (K × V)} (k : K) (h : NodupKeys l) :
    NodupKeys (alPop l k) :=
  (map_fst_alPop_sublist l k).nodup h

theorem mem_alSet {l : List (K × V)} {k : K} {v : V} {p : K × V}
    (h : p ∈ alSet l k v) : p ∈ l ∨ p = (k, v) := by
  induction l with
  | nil => simpa [alSet] using h
  | cons q t ih =>
    by_cases hq : q.1 = k
    · simp only [alSet, if_pos hq, List.mem_cons] at h
      rcases h with h | h
      · right; exact h
      · left; exact List.mem_cons_of_mem _ h
    · simp only [alSet, if_neg hq, List.mem_cons] at h
      rcases h with h | h
      · left; exact h ▸ List.mem_cons_self _ _
      · rcases ih h with h | h
        · left; exact List.mem_cons_of_mem _ h
        · right; exact h

theorem mem_alPop {l : List (K × V)} {k : K} {p : K × V}
    (h : p ∈ alPop l k) : p ∈ l := by
  induction l with
  | nil => simp [alPop] at h
  | cons q t ih =>
    by_cases hq : q.1 = k
    · simp only [alPop, if_pos hq] at h
      exact List.mem_cons_of_mem _ h
    · simp only [alPop, if_neg hq, List.mem_cons] at h
      rcases h with h | h
      · exact h ▸ List.mem_cons_self _ _
      · exact List.mem_cons_of_mem _ (ih h)

theorem not_mem_of_alGet_none {l : List (K × V)} {k : K}
    (h : alGet l k = none) : k ∉ l.map Prod.fst := by
  induction l with
  | nil => simp
  | cons p t ih =>
    by_cases hp : p.1 = k
    · simp [alGet, hp] at h
    · simp only [alGet, if_neg hp] at h
      simp only [List.map_cons, List.mem_cons]
      rintro (h1 | h1)
      · exact hp h1.symm
      · exact ih h h1

theorem nodupKeys_append_single {l : List (K × V)} {k : K} (v : V)
    (h : NodupKeys l) (hk : alGet l k = none) :
    NodupKeys (l ++ [(k, v)]) := by
  simp only [NodupKeys, List.map_append, List.map_cons, List.map_nil] at h ⊢
  rw [List.nodup_append]
  refine ⟨h, List.nodup_singleton _, ?_⟩
  intro a ha hb
  simp only [List.mem_singleton] at hb
  subst hb
  exact not_mem_of_alGet_none hk ha

end AssocLemmas

section MaxPoolLemmas

theorem maxPool_cons (off lim : Nat) (s : ℚ) (it : Item)
    (rest : List (ℚ × Item)) (seen : List (Ns × String)) :
    maxPool off lim ((s, it) :: rest) seen =
      if (it.ns, it.key) ∈ seen then maxPool off lim rest seen
      else if seen.length ≥ off + lim then []
      else if seen.length < off then
        maxPool off lim rest ((it.ns, it.key) :: seen)
      else (s, it) :: maxPool off lim rest ((it.ns, it.key) :: seen) := rfl

theorem dedupFirst_cons (p : ℚ × Item) (rest : List (ℚ × Item))
    (seen : List (Ns × String)) :
    dedupFirst (p :: rest) seen =
      if docId p ∈ seen then dedupFirst rest seen
      else p :: dedupFirst rest (docId p :: seen) := rfl

theorem maxPool_eq_window (off lim : Nat) (l : List (ℚ × Item)) :
    ∀ seen : List (Ns × String),
      maxPool off lim l seen =
        ((dedupFirst l seen).take (off + lim - seen.length)).drop
          (off - seen.length) := by
  induction l with
  | nil => intro seen; simp [maxPool, dedupFirst]
  | cons p rest ih =>
    intro seen
    obtain ⟨s, it⟩ := p
    rw [maxPool_cons, dedupFirst_cons]
    have hid : docId (s, it) = (it.ns, it.key) := rfl
    rw [hid]
    by_cases hk : (it.ns, it.key) ∈ seen
    · rw [if_pos hk, if_pos hk]
      exact ih seen
    · rw [if_neg hk, if_neg hk]
      by_cases h1 : seen.length ≥ off + lim
      · rw [if_pos h1]
        rw [Nat.sub_eq_zero_of_le h1]
        simp
      · rw [if_neg h1]
        by_cases h2 : seen.length < off
        · rw [if_pos h2]
          rw [ih ((it.ns, it.key) :: seen)]
          simp only [List.length_cons]
          have e1 : off + lim - seen.length = (off + lim - (seen.length + 1)) + 1 := by
            omega
          have e2 : off - seen.length = (off - (seen.length + 1)) + 1 := by
            omega
          rw [e1, e2, List.take_succ_cons, List.drop_succ_cons]
        · rw [if_neg h2]
          rw [ih ((it.ns, it.key) :: seen)]
          simp only [List.length_cons]
          have e1 : off + lim - seen.length = (off + lim - (seen.length + 1)) + 1 := by
            omega
          have e2 : off - seen.length = 0 := by omega
          have e3 : off - (seen.length + 1) = 0 := by omega
          rw [e1, e2, e3, List.take_succ_cons, List.drop_zero, List.drop_zero]

theorem maxPool_eq_drop_take (off lim : Nat) (l : List (ℚ × Item)) :
    maxPool off lim l [] = ((dedupFirst l []).drop off).take lim := by
  rw [maxPool_eq_window off lim l []]
  simp only [List.length_nil, Nat.sub_zero]
  rw [List.drop_take]
  have : off + lim - off = lim := by omega
  rw [this]

theorem docId_not_mem_of_mem_dedupFirst :
    ∀ (l : List (ℚ × Item)) (seen : List (Ns × String)) (p : ℚ × Item),
      p ∈ dedupFirst l seen → docId p ∉ seen := by
  intro l
  induction l with
  | nil => intro seen p hp; simp [dedupFirst] at hp
  | cons x rest ih =>
    intro seen p hp
    rw [dedupFirst_cons] at hp
    by_cases hx : docId x ∈ seen
    · exact ih seen p (by simpa [if_pos hx] using hp)
    · rw [if_neg hx] at hp
      rcases List.mem_cons.mp hp with rfl | hp
      · exact hx
      · have := ih _ p hp
        intro hmem
        exact this (List.mem_cons_of_mem _ hmem)

theorem nodup_docId_dedupFirst :
    ∀ (l : List (ℚ × Item)) (seen : List (Ns × String)),
      ((dedupFirst l seen).map docId).Nodup := by
  intro l
  induction l with
  | nil => intro seen; simp [dedupFirst]
  | cons x rest ih =>
    intro seen
    rw [dedupFirst_cons]
    by_cases hx : docId x ∈ seen
    · rw [if_pos hx]; exact ih seen
    · rw [if_neg hx]
      simp only [List.map_cons, List.nodup_cons]
      constructor
      · intro hmem
        rcases List.mem_map.mp hmem with ⟨q, hq, hdq⟩
        have := docId_not_mem_of_mem_dedupFirst rest _ q hq
        exact this (hdq ▸ List.mem_cons_self _ _)
      · exact ih _

theorem scoresOf_cons (it : Item) (x : ℚ × Item) (rest : List (ℚ × Item)) :
    scoresOf it (x :: rest) =
      if (x.2.ns, x.2.key) = (it.ns, it.key) then x.1 :: scoresOf it rest
      else scoresOf it rest := by
  by_cases h : (x.2.ns, x.2.key) = (it.ns, it.key)
  · rw [if_pos h]
    rw [Prod.mk.injEq] at h
    simp [scoresOf, List.filter_cons, h.1, h.2]
  · rw [if_neg h]
    rw [Prod.mk.injEq] at h
    simp [scoresOf, List.filter_cons, h]

theorem scoresOf_perm {l l' : List (ℚ × Item)} (h : l.Perm l') (it : Item) :
    (scoresOf it l).Perm (scoresOf it l') :=
  (h.filter _).map _

theorem dedupFirst_best :
    ∀ (l : List (ℚ × Item)) (seen : List (Ns × String)),
      l.Sorted scoreGeP → ∀ p ∈ dedupFirst l seen,
        p.1 ∈ scoresOf p.2 l ∧ ∀ s' ∈ scoresOf p.2 l, s' ≤ p.1 := by
  intro l
  induction l with
  | nil => intro seen _ p hp; simp [dedupFirst] at hp
  | cons x rest ih =>
    intro seen hs p hp
    rw [List.sorted_cons] at hs
    rw [dedupFirst_cons] at hp
    by_cases hx : docId x ∈ seen
    · rw [if_pos hx] at hp
      have hne : docId p ≠ docId x := by
        have hnot := docId_not_mem_of_mem_dedupFirst rest seen p hp
        intro he
        exact hnot (he ▸ hx)
      have hcond : ¬((x.2.ns, x.2.key) = (p.2.ns, p.2.key)) := by
        intro he
        exact hne (by simpa [docId] using he.symm)
      rw [scoresOf_cons, if_neg hcond]
      exact ih seen hs.2 p hp
    · rw [if_neg hx] at hp
      rcases List.mem_cons.mp hp with rfl | hp
      · constructor
        · rw [scoresOf_cons, if_pos rfl]
          exact List.mem_cons_self _ _
        · intro s' hs'
          rw [scoresOf_cons, if_pos rfl] at hs'
          rcases List.mem_cons.mp hs' with rfl | hs'
          · exact le_refl _
          · rcases List.mem_map.mp hs' with ⟨q, hq, rfl⟩
            exact hs.1 q (List.mem_of_mem_filter hq)
      · have hne : docId p ≠ docId x := by
          have hnot := docId_not_mem_of_mem_dedupFirst rest _ p hp
          intro he
          exact hnot (he ▸ List.mem_cons_self _ _)
        have hcond : ¬((x.2.ns, x.2.key) = (p.2.ns, p.2.key)) := by
          intro he
          exact hne (by simpa [docId] using he.symm)
        rw [scoresOf_cons, if_neg hcond]
        exact ih _ hs.2 p hp

end MaxPoolLemmas

/-- C1: refuted — texts are indeed coalesced (`extract_texts` records one
entry for the duplicated text with both destinations), but the batch then
calls the gateway with the unique texts while `_insertinmem_store` compares
the returned vector count against the number of flattened destinations, so a
gateway returning exactly one vector per unique text makes the batch abort
with the count-mismatch error instead of fanning the vector out. -/
theorem c1_coalesced_text_batch_aborts :
    extract_texts (some cfgF)
        [((["ns"], "k1"), ⟨["ns"], "k1", some [("f", .str "hello")], none⟩),
         ((["ns"], "k2"), ⟨["ns"], "k2", some [("f", .str "hello")], none⟩)]
      = [("hello", [(["ns"], "k1", "f"), (["ns"], "k2", "f")])] ∧
    batch (some cfgF) cos0 gwOne gwq0 0 emptyStore
        [.put ⟨["ns"], "k1", some [("f", .str "hello")], none⟩,
         .put ⟨["ns"], "k2", some [("f", .str "hello")], none⟩]
      = .error
          "Number of embeddings (1) does not match number of indices (2)" :=
  ⟨rfl, rfl⟩

/-- C3: the pure-Python fallback maps zero-norm pairs to `0`, but the numpy
branch only masks zero-norm candidate rows: a zero-norm query vector against
a nonzero candidate divides by `Y_norm * 0`, producing `nan` (modelled
`none`) rather than the claimed `0`. -/
theorem c3_zero_norm_similarity :
    cosine_similarity_np sqrtDemo [0] [[1]] = [none] ∧
    cosine_similarity_fallback sqrtDemo [0] [[1]] = [0] ∧
    cosine_similarity_np sqrtDemo [1] [[0]] = [some 0] ∧
    cosine_similarity_fallback sqrtDemo [1] [[0]] = [0] := by
  refine ⟨?_, ?_, ?_, ?_⟩ <;> simp [cosine_similarity_np,
    cosine_similarity_fallback, normSq, dotQ, npDiv, sqrtDemo]

/-- C2: counterexample — after overwriting a two-fragment document with a
single-fragment value, the stale vector entries `f.0` and `f.1` survive next
to the new entry `f`, so the claimed purge of all previous vector entries
does not happen on overwrite. -/
theorem c2_counterexample :
    overwriteScenario.map
        (fun st => (vecLookup st ["ns"] "k").map (fun l => l.map Prod.fst))
      = some (some ["f.0", "f.1", "f"]) := rfl

/-- C5: counterexample — a `Get` on a namespace with no documents vivifies
an empty slot in `_data`, and a `ListNamespaces` later in the same batch
reports that namespace, although the state as of the start of the batch
(second conjunct) contains no namespace at all. -/
theorem c5_counterexample :
    batch none cos0 gwOne gwq0 0 emptyStore
        [.get ["a"] "k", .listNs [] none 10 0]
      = .ok ([.null, .nss [["a"]]], ⟨[(["a"], [])], []⟩) ∧
    batch none cos0 gwOne gwq0 0 emptyStore [.listNs [] none 10 0]
      = .ok ([.nss []], emptyStore) := ⟨rfl, rfl⟩

/-- C7: counterexample — an unrecognized `match_type` is not fatal when the
namespace is shorter than the condition's path: the length guard returns a
plain non-match first, so the whole `ListNamespaces` succeeds with `[]`. -/
theorem c7_counterexample :
    does_match ⟨"bogus", ["x", "y"]⟩ ["a"] = .ok false ∧
    handle_list_namespaces ⟨[(["a"], [])], []⟩ [⟨"bogus", ["x", "y"]⟩]
        none 10 0
      = .ok [] := ⟨rfl, rfl⟩

/-- C10: counterexample — the batch with only a `Get` does vivify the empty
namespace, but a subsequent `ListNamespaces` with no conditions (vacuously
satisfied) and `limit = 0` excludes it from its output, so the unqualified
"every subsequent ListNamespaces ... includes it" fails at the pagination
step. -/
theorem c10_counterexample :
    batch none cos0 gwOne gwq0 0 emptyStore [.get ["a"] "k"]
      = .ok ([.null], ⟨[(["a"], [])], []⟩) ∧
    handle_list_namespaces ⟨[(["a"], [])], []⟩ [] none 0 0 = .ok [] :=
  ⟨rfl, rfl⟩

/-- C4: for every query vector and candidate set, the query-search result is
exactly the `[offset, offset+limit)` window of the first-occurrence
deduplication of the score-sorted flattened pairs, rendered with the
retained score as metadata; each document appears at most once; and every
kept pair carries a score that is one of — and an upper bound of — all the
scores that document contributed. -/
theorem c4_max_pooling (cos : Vec → List Vec → List ℚ) (qv : Vec)
    (cands : List (Item × List Vec)) (off lim : Nat) :
    searchQueryResult cos qv cands off lim
        = (((dedupFirst
              (List.insertionSort scoreGeP (flatScored cos qv cands)) []).drop
            off).take lim).map toSearchItemScored
      ∧ ((searchQueryResult cos qv cands off lim).map
          (fun si => (si.ns, si.key))).Nodup
      ∧ ∀ p ∈ maxPool off lim
            (List.insertionSort scoreGeP (flatScored cos qv cands)) [],
          p.1 ∈ scoresOf p.2 (flatScored cos qv cands) ∧
            ∀ s' ∈ scoresOf p.2 (flatScored cos qv cands), s' ≤ p.1 := by
  refine ⟨?_, ?_, ?_⟩
  · unfold searchQueryResult
    rw [maxPool_eq_drop_take]
  · unfold searchQueryResult
    rw [maxPool_eq_drop_take, List.map_map]
    have hco : ((fun si : SearchItem => (si.ns, si.key)) ∘ toSearchItemScored)
        = docId := by
      funext p
      rfl
    rw [hco]
    have hsub : (((dedupFirst
        (List.insertionSort scoreGeP (flatScored cos qv cands)) []).drop
          off).take lim).Sublist
        (dedupFirst (List.insertionSort scoreGeP (flatScored cos qv cands)) []) :=
      (List.take_sublist _ _).trans (List.drop_sublist _ _)
    exact (hsub.map docId).nodup (nodup_docId_dedupFirst _ _)
  · intro p hp
    have hsorted := List.sorted_insertionSort scoreGeP (flatScored cos qv cands)
    have hperm := List.perm_insertionSort scoreGeP (flatScored cos qv cands)
    have hd : p ∈ dedupFirst
        (List.insertionSort scoreGeP (flatScored cos qv cands)) [] := by
      rw [maxPool_eq_drop_take] at hp
      exact (List.drop_sublist _ _).subset ((List.take_sublist _ _).subset hp)
    have hbest := dedupFirst_best _ [] hsorted p hd
    have htrans := scoresOf_perm hperm p.2
    constructor
    · exact htrans.mem_iff.mp hbest.1
    · intro s' hs'
      exact hbest.2 s' (htrans.mem_iff.mpr hs')

/-- C4 witness: instantiating `c4_max_pooling` on a concrete candidate set
where one document contributes vectors scoring 1 and 3, another scores 2. -/
theorem c4_witness :
    searchQueryResult cosDemo [1] candsDemo 0 2
      = (((dedupFirst
            (List.insertionSort scoreGeP (flatScored cosDemo [1] candsDemo)) []).drop
          0).take 2).map toSearchItemScored :=
  (c4_max_pooling cosDemo [1] candsDemo 0 2).1

section FilterLemmas

theorem operatorAll_ok_true_iff (iv : Value) :
    ∀ fs : List (String × Value),
      operatorAll iv fs = .ok true ↔
        ∀ p ∈ fs, apply_operator iv p.1 p.2 = .ok true := by
  intro fs
  induction fs with
  | nil => simp [operatorAll]
  | cons q rest ih =>
    obtain ⟨k, w⟩ := q
    simp only [operatorAll]
    cases hop : apply_operator iv k w with
    | error e =>
      simp only [List.mem_cons]
      constructor
      · intro h; cases h
      · intro h
        have := h (k, w) (Or.inl rfl)
        rw [hop] at this
        cases this
    | ok b =>
      cases b with
      | true =>
        simp only [if_true]
        rw [ih]
        constructor
        · intro h p hp
          rcases List.mem_cons.mp hp with rfl | hp
          · exact hop
          · exact h p hp
        · intro h p hp
          exact h p (List.mem_cons_of_mem _ hp)
      | false =>
        simp only
        constructor
        · intro h; cases h
        · intro h
          have := h (k, w) (List.mem_cons_self _ _)
          rw [hop] at this
          cases this

theorem compareKeys_ok_true_iff (ifs : List (String × Value)) :
    ∀ fs : List (String × Value),
      compareKeys ifs fs = .ok true ↔
        ∀ p ∈ fs, compare_values ((alGet ifs p.1).getD .null) p.2 = .ok true := by
  intro fs
  induction fs with
  | nil => simp [compareKeys]
  | cons q rest ih =>
    obtain ⟨k, w⟩ := q
    simp only [compareKeys]
    cases hcv : compare_values ((alGet ifs k).getD .null) w with
    | error e =>
      constructor
      · intro h; cases h
      · intro h
        have := h (k, w) (List.mem_cons_self _ _)
        rw [hcv] at this
        cases this
    | ok b =>
      cases b with
      | true =>
        simp only [if_true]
        rw [ih]
        constructor
        · intro h p hp
          rcases List.mem_cons.mp hp with rfl | hp
          · exact hcv
          · exact h p hp
        · intro h p hp
          exact h p (List.mem_cons_of_mem _ hp)
      | false =>
        simp only
        constructor
        · intro h; cases h
        · intro h
          have := h (k, w) (List.mem_cons_self _ _)
          rw [hcv] at this
          cases this

theorem compareElems_ok_true_iff :
    ∀ il fl : List Value,
      compareElems il fl = .ok true ↔
        ∀ pr ∈ List.zip il fl, compare_values pr.1 pr.2 = .ok true := by
  intro il
  induction il with
  | nil => intro fl; cases fl <;> simp [compareElems]
  | cons iv il' ih =>
    intro fl
    cases fl with
    | nil => simp [compareElems]
    | cons fv fl' =>
      simp only [compareElems]
      cases hcv : compare_values iv fv with
      | error e =>
        constructor
        · intro h; cases h
        · intro h
          have := h (iv, fv) (by simp [List.zip_cons_cons])
          rw [hcv] at this
          cases this
      | ok b =>
        cases b with
        | true =>
          simp only [if_true]
          rw [ih fl']
          constructor
          · intro h pr hpr
            rw [List.zip_cons_cons] at hpr
            rcases List.mem_cons.mp hpr with rfl | hpr
            · exact hcv
            · exact h pr hpr
          · intro h pr hpr
            exact h pr (by rw [List.zip_cons_cons]; exact List.mem_cons_of_mem _ hpr)
        | false =>
          simp only
          constructor
          · intro h; cases h
          · intro h
            have := h (iv, fv) (by simp [List.zip_cons_cons])
            rw [hcv] at this
            cases this

end FilterLemmas

/-- C6: the filter evaluator returns true exactly when every field matches
under the recursive rules — top-level conjunction over fields (missing keys
read as null); a mapping with a `$`-key conjoins all operators; a mapping
without `$`-keys requires a stored mapping and recurses per key; a sequence
requires a stored sequence of the same length compared elementwise; scalars
compare by equality; `$eq`/`$ne` are exact, the numeric operators compare
coerced floats, failed coercion and unrecognized operators raise; and the
`age` examples behave as claimed. -/
theorem c6_filter_evaluator :
    (∀ (doc : Doc) (filt : List (String × Value)),
        filter_func filt doc = .ok true ↔
          ∀ p ∈ filt,
            compare_values ((alGet doc p.1).getD .null) p.2 = .ok true)
    ∧ (∀ (v : Value) (fs : List (String × Value)),
        fs.any (fun p => startsDollar p.1) = true →
          (compare_values v (.obj fs) = .ok true ↔
            ∀ p ∈ fs, apply_operator v p.1 p.2 = .ok true))
    ∧ (∀ (v : Value) (fs : List (String × Value)),
        fs.any (fun p => startsDollar p.1) = false →
          (compare_values v (.obj fs) = .ok true ↔
            ∃ ifs, v = .obj ifs ∧
              ∀ p ∈ fs,
                compare_values ((alGet ifs p.1).getD .null) p.2 = .ok true))
    ∧ (∀ (v : Value) (fl : List Value),
        compare_values v (.arr fl) = .ok true ↔
          ∃ il, v = .arr il ∧ il.length = fl.length ∧
            ∀ pr ∈ List.zip il fl, compare_values pr.1 pr.2 = .ok true)
    ∧ (∀ v q, compare_values v (.num q) = .ok (pyEq v (.num q)))
    ∧ (∀ v s, compare_values v (.str s) = .ok (pyEq v (.str s)))
    ∧ (∀ v b, compare_values v (.bool b) = .ok (pyEq v (.bool b)))
    ∧ (∀ v, compare_values v .null = .ok (pyEq v .null))
    ∧ (∀ v w, apply_operator v "$eq" w = .ok (pyEq v w))
    ∧ (∀ v w, apply_operator v "$ne" w = .ok (!pyEq v w))
    ∧ (∀ v w a b, pyFloat v = some a → pyFloat w = some b →
        apply_operator v "$gte" w = .ok (decide (a ≥ b)) ∧
          apply_operator v "$gt" w = .ok (decide (a > b)) ∧
          apply_operator v "$lt" w = .ok (decide (a < b)) ∧
          apply_operator v "$lte" w = .ok (decide (a ≤ b)))
    ∧ (∀ v w, pyFloat v = none → ∃ e, apply_operator v "$gte" w = .error e)
    ∧ (∀ v w op, op ∉ ["$eq", "$gt", "$gte", "$lt", "$lte", "$ne"] →
        ∃ e, apply_operator v op w = .error e)
    ∧ filter_func [("age", .obj [("$gte", .num 18)])] [("age", .num 30)]
        = .ok true
    ∧ filter_func [("age", .obj [("$lt", .num 18)])] [("age", .num 30)]
        = .ok false := by
  refine ⟨?_, ?_, ?_, ?_, ?_, ?_, ?_, ?_, ?_, ?_, ?_, ?_, ?_, rfl, rfl⟩
  · intro doc filt
    cases filt with
    | nil => simp [filter_func]
    | cons q rest => exact compareKeys_ok_true_iff doc (q :: rest)
  · intro v fs h
    show (if fs.any (fun p => startsDollar p.1) then operatorAll v fs
        else match v with
          | .obj ifs => compareKeys ifs fs
          | _ => .ok false) = .ok true ↔ _
    rw [if_pos h]
    exact operatorAll_ok_true_iff v fs
  · intro v fs h
    show (if fs.any (fun p => startsDollar p.1) then operatorAll v fs
        else match v with
          | .obj ifs => compareKeys ifs fs
          | _ => .ok false) = .ok true ↔ _
    rw [if_neg (by simp [h])]
    cases v with
    | obj ifs =>
      rw [compareKeys_ok_true_iff]
      constructor
      · intro hall
        exact ⟨ifs, rfl, hall⟩
      · rintro ⟨ifs', heq, hall⟩
        cases heq
        exact hall
    | null => simp
    | bool b => simp
    | num q => simp
    | str s => simp
    | arr xs => simp
  · intro v fl
    cases v with
    | arr il =>
      show (if il.length = fl.length then compareElems il fl
          else .ok false) = .ok true ↔ _
      by_cases hlen : il.length = fl.length
      · rw [if_pos hlen, compareElems_ok_true_iff]
        constructor
        · intro hall
          exact ⟨il, rfl, hlen, hall⟩
        · rintro ⟨il', heq, _, hall⟩
          cases heq
          exact hall
      · rw [if_neg hlen]
        constructor
        · intro h; cases h
        · rintro ⟨il', heq, hlen', _⟩
          cases heq
          exact absurd hlen' hlen
    | null => simp [compare_values]
    | bool b => simp [compare_values]
    | num q => simp [compare_values]
    | str s => simp [compare_values]
    | obj fs => simp [compare_values]
  · intro v q; rfl
  · intro v s; rfl
  · intro v b; rfl
  · intro v; rfl
  · intro v w; rfl
  · intro v w; rfl
  · intro v w a b ha hb
    refine ⟨?_, ?_, ?_, ?_⟩ <;> simp [apply_operator, ha, hb]
  · intro v w h
    exact ⟨"could not convert operand to float", by simp [apply_operator, h]⟩
  · intro v w op h
    simp only [List.mem_cons, List.mem_singleton] at h
    push_neg at h
    obtain ⟨h1, h2, h3, h4, h5, h6⟩ := h
    exact ⟨"Unsupported operator: " ++ op,
      by simp [apply_operator, h1, h2, h3, h4, h5, h6]⟩

/-- C6 witness: the `$`-operator mapping rule of `c6_filter_evaluator`
applied to the spec's own example value and filter. -/
theorem c6_witness :
    compare_values (.num 30) (.obj [("$gte", .num 18)]) = .ok true ↔
      ∀ p ∈ [("$gte", Value.num 18)],
        apply_operator (.num 30) p.1 p.2 = .ok true :=
  c6_filter_evaluator.2.1 (.num 30) [("$gte", .num 18)] rfl

section MatcherLemmas

theorem zipAll_eq_rangeAll :
    ∀ (path key : Ns), path.length ≤ key.length →
      ((List.zip key path).all fun p => p.2 == "*" || p.1 == p.2)
        = (List.range path.length).all
            (fun i => segOk (path.getD i "") (key.getD i "")) := by
  intro path
  induction path with
  | nil => intro key _; simp
  | cons p ps ih =>
    intro key hlen
    cases key with
    | nil => simp at hlen
    | cons k ks =>
      simp only [List.length_cons, Nat.add_le_add_iff_right] at hlen
      rw [List.zip_cons_cons, List.all_cons]
      simp only [List.length_cons]
      rw [List.range_succ_eq_map, List.all_cons, List.all_map]
      have hh : ((fun i => segOk ((p :: ps).getD i "") ((k :: ks).getD i "")) ∘
            Nat.succ)
          = (fun i => segOk (ps.getD i "") (ks.getD i "")) := by
        funext i
        simp [Function.comp, List.getD_cons_succ]
      rw [hh, ih ks hlen]
      simp [segOk]

theorem does_match_typed (c : MatchCond) (h : CondTyped c) (key : Ns) :
    does_match c key = .ok (specCondMatch c key) := by
  rcases h with h | h
  · by_cases hlen : key.length < c.path.length
    · have h1 : ¬c.path.length ≤ key.length := by omega
      simp [does_match, specCondMatch, h, hlen, specHeadMatch, h1]
    · have h1 : c.path.length ≤ key.length := by omega
      simp [does_match, specCondMatch, h, hlen, specHeadMatch, h1,
        zipAll_eq_rangeAll c.path key h1]
  · by_cases hlen : key.length < c.path.length
    · have h1 : ¬c.path.reverse.length ≤ key.reverse.length := by
        simp only [List.length_reverse]
        omega
      simp [does_match, specCondMatch, h, hlen, specTailMatch,
        specHeadMatch, h1]
    · have h1 : c.path.reverse.length ≤ key.reverse.length := by
        simp only [List.length_reverse]
        omega
      have h2 : c.path.length ≤ key.length := by omega
      simp [does_match, specCondMatch, h, hlen, specTailMatch, specHeadMatch,
        zipAll_eq_rangeAll c.path.reverse key.reverse h1, h1, h2]

theorem allMatch_typed (conds : List MatchCond)
    (h : ∀ c ∈ conds, CondTyped c) (ns : Ns) :
    allMatch conds ns = .ok (conds.all fun c => specCondMatch c ns) := by
  induction conds with
  | nil => rfl
  | cons c rest ih =>
    rw [allMatch, does_match_typed c (h c (List.mem_cons_self _ _)) ns]
    simp only [List.all_cons]
    cases hb : specCondMatch c ns with
    | true => simpa using ih (fun c hc => h c (List.mem_cons_of_mem _ hc))
    | false => simp

theorem filterAll_typed (conds : List MatchCond)
    (h : ∀ c ∈ conds, CondTyped c) :
    ∀ nss : List Ns,
      (nss.foldr
          (fun ns acc =>
            match allMatch conds ns with
            | .error e => .error e
            | .ok b =>
              match acc with
              | .error e => .error e
              | .ok l => .ok (if b then ns :: l else l))
          (.ok []) : Except String (List Ns))
        = .ok (nss.filter fun ns => conds.all fun c => specCondMatch c ns) := by
  intro nss
  induction nss with
  | nil => rfl
  | cons ns rest ih =>
    rw [List.foldr_cons, ih, allMatch_typed conds h ns, List.filter_cons]

theorem filteredNss_typed (conds : List MatchCond)
    (h : ∀ c ∈ conds, CondTyped c) (nss : List Ns) :
    filteredNss conds nss
      = .ok (nss.filter fun ns => conds.all fun c => specCondMatch c ns) := by
  cases conds with
  | nil => simp [filteredNss]
  | cons c cs =>
    simp only [filteredNss]
    exact filterAll_typed (c :: cs) h nss

theorem nsLe_total : ∀ a b : Ns, nsLe a b = true ∨ nsLe b a = true := by
  intro a
  induction a with
  | nil => intro b; left; rfl
  | cons x xs ih =>
    intro b
    cases b with
    | nil => right; rfl
    | cons y ys =>
      by_cases hxy : x = y
      · subst hxy
        rcases ih ys with h | h
        · left; simp [nsLe, h]
        · right; simp [nsLe, h]
      · rcases Ne.lt_or_lt hxy with h | h
        · left; simp [nsLe, hxy, h]
        · right; simp [nsLe, Ne.symm hxy, h]

theorem nsLe_trans :
    ∀ a b c : Ns, nsLe a b = true → nsLe b c = true → nsLe a c = true := by
  intro a
  induction a with
  | nil => intro b c _ _; rfl
  | cons x xs ih =>
    intro b c hab hbc
    cases b with
    | nil => simp [nsLe] at hab
    | cons y ys =>
      cases c with
      | nil => simp [nsLe] at hbc
      | cons z zs =>
        by_cases hxy : x = y <;> by_cases hyz : y = z
        · subst hxy; subst hyz
          simp only [nsLe, if_pos rfl] at hab hbc ⊢
          exact ih ys zs hab hbc
        · subst hxy
          simp only [nsLe, if_pos rfl, if_neg hyz] at hbc
          simp only [nsLe, if_neg hyz]
          exact hbc
        · subst hyz
          simp only [nsLe, if_neg hxy] at hab
          simp only [nsLe, if_neg hxy]
          exact hab
        · simp only [nsLe, if_neg hxy] at hab
          simp only [nsLe, if_neg hyz] at hbc
          have hxz : x < z := lt_trans (of_decide_eq_true hab)
            (of_decide_eq_true hbc)
          have hne : x ≠ z := ne_of_lt hxz
          simp [nsLe, hne, hxz]

/-- C7: amended — when every supplied condition carries a recognised
match type, `ListNamespaces` returns exactly the `[offset, offset+limit)`
window of the lexicographically sorted set of namespaces satisfying all
conditions under the spec's wildcard rules (truncated to `max_depth` leading
segments and deduplicated when given), and the output is lexicographically
sorted.  The original claim's unrecognized-match-type clause is refuted by
`c7_counterexample`: the length guard can mask the error. -/
theorem c7_list_namespaces (st : Store) (conds : List MatchCond)
    (maxDepth : Option Nat) (limit offset : Nat)
    (h : ∀ c ∈ conds, CondTyped c) :
    handle_list_namespaces st conds maxDepth limit offset
        = .ok (((match maxDepth with
              | some d =>
                List.insertionSort nsLeP
                  ((((st.data.map Prod.fst).filter
                      (fun ns => conds.all fun c => specCondMatch c ns)).map
                    (fun ns : Ns => ns.take d)).eraseDups)
              | none =>
                List.insertionSort nsLeP
                  ((st.data.map Prod.fst).filter
                    (fun ns => conds.all fun c => specCondMatch c ns))).drop
            offset).take limit)
      ∧ ∀ l, handle_list_namespaces st conds maxDepth limit offset = .ok l →
          l.Sorted nsLeP := by
  have hfil := filteredNss_typed conds h (st.data.map Prod.fst)
  have hmain : handle_list_namespaces st conds maxDepth limit offset
      = .ok (((match maxDepth with
            | some d =>
              List.insertionSort nsLeP
                ((((st.data.map Prod.fst).filter
                    (fun ns => conds.all fun c => specCondMatch c ns)).map
                  (fun ns : Ns => ns.take d)).eraseDups)
            | none =>
              List.insertionSort nsLeP
                ((st.data.map Prod.fst).filter
                  (fun ns => conds.all fun c => specCondMatch c ns))).drop
          offset).take limit) := by
    simp only [handle_list_namespaces, hfil]
  refine ⟨hmain, ?_⟩
  intro l hl
  rw [hmain] at hl
  injection hl with hl
  subst hl
  haveI : IsTotal Ns nsLeP := ⟨fun a b => nsLe_total a b⟩
  haveI : IsTrans Ns nsLeP := ⟨fun a b c => nsLe_trans a b c⟩
  have hsorted : (match maxDepth with
      | some d =>
        List.insertionSort nsLeP
          ((((st.data.map Prod.fst).filter
              (fun ns => conds.all fun c => specCondMatch c ns)).map
            (fun ns : Ns => ns.take d)).eraseDups)
      | none =>
        List.insertionSort nsLeP
          ((st.data.map Prod.fst).filter
            (fun ns => conds.all fun c => specCondMatch c ns))).Sorted nsLeP := by
    cases maxDepth with
    | some d => exact List.sorted_insertionSort nsLeP _
    | none => exact List.sorted_insertionSort nsLeP _
  exact List.Pairwise.sublist
    ((List.take_sublist _ _).trans (List.drop_sublist _ _)) hsorted

/-- C7 witness: `c7_list_namespaces` on a three-namespace store with the
condition `(prefix, users/*)`. -/
theorem c7_witness :
    handle_list_namespaces stListDemo [condUsers] none 10 0
      = .ok (((List.insertionSort nsLeP
            ((stListDemo.data.map Prod.fst).filter
              (fun ns => [condUsers].all fun c => specCondMatch c ns))).drop
          0).take 10) :=
  (c7_list_namespaces stListDemo [condUsers] none 10 0
    (by
      intro c hc
      rcases List.mem_singleton.mp hc with rfl
      exact Or.inl rfl)).1

end MatcherLemmas

section PipelineLemmas

theorem alGet_mem {K V : Type} [DecidableEq K] {l : List (K × V)} {k : K}
    {v : V} (h : alGet l k = some v) : (k, v) ∈ l := by
  induction l with
  | nil => cases h
  | cons p t ih =>
    obtain ⟨a, b⟩ := p
    by_cases hp : a = k
    · subst hp
      simp only [alGet, if_pos rfl] at h
      injection h with h
      subst h
      exact List.mem_cons_self _ _
    · simp only [alGet, if_neg hp] at h
      exact List.mem_cons_of_mem _ (ih h)

theorem vivExt_refl {V : Type} (d : List (Ns × List (String × V))) :
    VivExt d d :=
  ⟨⟨[], by simp, by simp⟩, fun h => h⟩

theorem vivExt_trans {V : Type} {d d' d'' : List (Ns × List (String × V))}
    (h1 : VivExt d d') (h2 : VivExt d' d'') : VivExt d d'' := by
  refine ⟨?_, fun hn => h2.2 (h1.2 hn)⟩
  obtain ⟨e1, rfl, he1⟩ := h1.1
  obtain ⟨e2, rfl, he2⟩ := h2.1
  refine ⟨e1 ++ e2, by simp, ?_⟩
  intro p hp
  rcases List.mem_append.mp hp with hp | hp
  · exact he1 p hp
  · exact he2 p hp

theorem vivExt_mem {V : Type} {d d' : List (Ns × List (String × V))}
    (h : VivExt d d') {p : Ns × List (String × V)} (hp : p ∈ d') :
    p ∈ d ∨ p.2 = [] := by
  obtain ⟨ext, rfl, hext⟩ := h.1
  rcases List.mem_append.mp hp with hp | hp
  · exact Or.inl hp
  · exact Or.inr (hext p hp)

theorem alGet_vivExt {V : Type} {d d' : List (Ns × List (String × V))}
    (h : VivExt d d') (ns : Ns) :
    alGet d' ns = alGet d ns ∨
      (alGet d ns = none ∧ alGet d' ns = some []) := by
  obtain ⟨ext, rfl, hext⟩ := h.1
  cases hd : alGet d ns with
  | some nsd => left; exact alGet_append_left hd
  | none =>
    rw [alGet_append_right hd]
    cases he : alGet ext ns with
    | none => left; exact hd.symm ▸ rfl
    | some v =>
      right
      refine ⟨rfl, ?_⟩
      have hv : v = [] := hext (ns, v) (alGet_mem he)
      rw [← hv]

theorem dataLookup_vivExt {d d' : List (Ns × List (String × Item))}
    (h : VivExt d d') (ns : Ns) (key : String) :
    dataLookup d' ns key = dataLookup d ns key := by
  rcases alGet_vivExt h ns with he | ⟨h1, h2⟩
  · rw [dataLookup, he, dataLookup]
  · rw [dataLookup, h2, dataLookup, h1]
    rfl

theorem vecMapLookup_vivExt
    {d d' : List (Ns × List (String × List (String × Vec)))}
    (h : VivExt d d') (ns : Ns) (key : String) :
    vecMapLookup d' ns key = vecMapLookup d ns key := by
  rcases alGet_vivExt h ns with he | ⟨h1, h2⟩
  · rw [vecMapLookup, he, vecMapLookup]
  · rw [vecMapLookup, h2, vecMapLookup, h1]
    rfl

theorem alViv_vivExt {V : Type} (d : List (Ns × List (String × V)))
    (ns : Ns) : VivExt d (alViv d ns []).1 := by
  cases hd : alGet d ns with
  | some v => rw [alViv_of_some [] hd]; exact vivExt_refl d
  | none =>
    rw [alViv_of_none [] hd]
    exact ⟨⟨[(ns, [])], rfl, by simp⟩,
      fun hn => nodupKeys_append_single [] hn hd⟩

theorem getStep_result (d : List (Ns × List (String × Item))) (ns : Ns)
    (key : String) :
    (match alGet (alViv d ns []).2 key with
      | some it => BResult.item it
      | none => .null) = renderGet (dataLookup d ns key) := by
  cases hd : alGet d ns with
  | some nsd =>
    rw [alViv_of_some [] hd]
    simp only [dataLookup, hd]
    cases h2 : alGet nsd key <;> simp [renderGet]
  | none =>
    rw [alViv_of_none [] hd]
    simp only [dataLookup, hd]
    simp [renderGet, alGet]

theorem filterItemsKeys_vivExt (op : SearchOp) (ns : Ns) :
    ∀ (items : List (String × Item))
      (inm : List (Ns × List (String × List (String × Vec))))
      (inm' : List (Ns × List (String × List (String × Vec))))
      (r : List (Item × List Vec)),
      filterItemsKeys op ns inm items = .ok (inm', r) → VivExt inm inm' := by
  intro items
  induction items with
  | nil =>
    intro inm inm' r h
    simp only [filterItemsKeys] at h
    injection h with h
    injection h with h1 _
    subst h1
    exact vivExt_refl inm
  | cons kv rest ih =>
    intro inm inm' r h
    obtain ⟨key, it⟩ := kv
    simp only [filterItemsKeys] at h
    cases hf : filter_func op.filt it.value with
    | error e => rw [hf] at h; cases h
    | ok b =>
      rw [hf] at h
      cases b with
      | false =>
        simp only [if_neg (by simp : ¬False = True)] at h
        cases hr : filterItemsKeys op ns inm rest with
        | error e => rw [hr] at h; cases h
        | ok r2 =>
          rw [hr] at h
          injection h with h
          subst h
          exact ih _ _ _ hr
      | true =>
        simp only [if_pos rfl] at h
        by_cases hq : queryTruthy op.query
        · rw [if_pos hq] at h
          cases hr : filterItemsKeys op ns (alViv inm ns []).1 rest with
          | error e => rw [hr] at h; cases h
          | ok r2 =>
            rw [hr] at h
            injection h with h
            injection h with h1 _
            subst h1
            exact vivExt_trans (alViv_vivExt inm ns) (ih _ _ _ hr)
        · rw [if_neg hq] at h
          cases hr : filterItemsKeys op ns inm rest with
          | error e => rw [hr] at h; cases h
          | ok r2 =>
            rw [hr] at h
            injection h with h
            injection h with h1 _
            subst h1
            exact ih _ _ _ hr

theorem filterItemsNss_vivExt (op : SearchOp) :
    ∀ (nss : List (Ns × List (String × Item)))
      (inm inm' : List (Ns × List (String × List (String × Vec))))
      (r : List (Item × List Vec)),
      filterItemsNss op inm nss = .ok (inm', r) → VivExt inm inm' := by
  intro nss
  induction nss with
  | nil =>
    intro inm inm' r h
    simp only [filterItemsNss] at h
    injection h with h
    injection h with h1 _
    subst h1
    exact vivExt_refl inm
  | cons nsp rest ih =>
    intro inm inm' r h
    obtain ⟨ns, items⟩ := nsp
    simp only [filterItemsNss] at h
    by_cases hpre : ns.take op.nsPre.length = op.nsPre
    · rw [if_pos hpre] at h
      cases hk : filterItemsKeys op ns inm items with
      | error e => rw [hk] at h; cases h
      | ok rk =>
        rw [hk] at h
        dsimp only at h
        cases hn : filterItemsNss op rk.1 rest with
        | error e => rw [hn] at h; cases h
        | ok rn =>
          rw [hn] at h
          injection h with h
          injection h with h1 _
          subst h1
          exact vivExt_trans (filterItemsKeys_vivExt op ns items inm _ _
            (by rw [hk])) (ih _ _ _ hn)
    · rw [if_neg hpre] at h
      cases hn : filterItemsNss op inm rest with
      | error e => rw [hn] at h; cases h
      | ok rn =>
        rw [hn] at h
        injection h with h
        subst h
        exact ih _ _ _ hn

theorem filter_items_spec (st : Store) (sop : SearchOp) {st' : Store}
    {cands : List (Item × List Vec)}
    (h : filter_items st sop = .ok (st', cands)) :
    st'.data = st.data ∧ VivExt st.inmem_store st'.inmem_store := by
  rw [filter_items] at h
  cases hn : filterItemsNss sop st.inmem_store st.data with
  | error e => rw [hn] at h; cases h
  | ok r =>
    rw [hn] at h
    injection h with h
    injection h with h1 _
    subst h1
    exact ⟨rfl, filterItemsNss_vivExt sop st.data st.inmem_store _ _ hn⟩

theorem getElem?_append_cons {α : Type} (a : List α) (x : α) (t : List α) :
    (a ++ x :: t)[a.length]? = some x := by
  induction a with
  | nil => simp
  | cons y ys ih => simpa using ih

theorem prepare_go_prefix :
    ∀ (ops : List Op) (st : Store) (i : Nat) (r0 : List BResult)
      (p0 : List ((Ns × String) × PutRec))
      (s0 : List (Nat × SearchOp × List (Item × List Vec)))
      (results : List BResult) (puts : List ((Ns × String) × PutRec))
      (searches : List (Nat × SearchOp × List (Item × List Vec)))
      (st' : Store),
      prepare_ops.go st ops i r0 p0 s0 = .ok (results, puts, searches, st') →
      ∃ t, results = r0 ++ t := by
  intro ops
  induction ops with
  | nil =>
    intro st i r0 p0 s0 results puts searches st' h
    simp only [prepare_ops.go] at h
    injection h with h
    injection h with h1 _
    exact ⟨[], by rw [← h1]; simp⟩
  | cons op rest ih =>
    intro st i r0 p0 s0 results puts searches st' h
    cases op with
    | get ns key =>
      simp only [prepare_ops.go] at h
      obtain ⟨t, ht⟩ := ih _ _ _ _ _ _ _ _ _ h
      exact ⟨_, ht.trans (List.append_assoc _ _ _)⟩
    | search sop =>
      simp only [prepare_ops.go] at h
      cases hf : filter_items st sop with
      | error e => rw [hf] at h; cases h
      | ok r =>
        rw [hf] at h
        dsimp only at h
        obtain ⟨t, ht⟩ := ih _ _ _ _ _ _ _ _ _ h
        exact ⟨_, ht.trans (List.append_assoc _ _ _)⟩
    | listNs conds maxDepth limit offset =>
      simp only [prepare_ops.go] at h
      cases hl : handle_list_namespaces st conds maxDepth limit offset with
      | error e => rw [hl] at h; cases h
      | ok l =>
        rw [hl] at h
        dsimp only at h
        obtain ⟨t, ht⟩ := ih _ _ _ _ _ _ _ _ _ h
        exact ⟨_, ht.trans (List.append_assoc _ _ _)⟩
    | put p =>
      simp only [prepare_ops.go] at h
      obtain ⟨t, ht⟩ := ih _ _ _ _ _ _ _ _ _ h
      exact ⟨_, ht.trans (List.append_assoc _ _ _)⟩

theorem prepare_go_get_results :
    ∀ (ops : List Op) (st : Store) (i : Nat) (r0 : List BResult)
      (p0 : List ((Ns × String) × PutRec))
      (s0 : List (Nat × SearchOp × List (Item × List Vec)))
      (results : List BResult) (puts : List ((Ns × String) × PutRec))
      (searches : List (Nat × SearchOp × List (Item × List Vec)))
      (st' : Store),
      prepare_ops.go st ops i r0 p0 s0 = .ok (results, puts, searches, st') →
      i = r0.length →
      ∀ (j : Nat) (ns : Ns) (key : String),
        ops[j]? = some (.get ns key) →
        results[i + j]? = some (renderGet (dataLookup st.data ns key)) := by
  intro ops
  induction ops with
  | nil =>
    intro st i r0 p0 s0 results puts searches st' h hi j ns key hj
    simp at hj
  | cons op rest ih =>
    intro st i r0 p0 s0 results puts searches st' h hi j ns key hj
    cases op with
    | get ns0 key0 =>
      simp only [prepare_ops.go] at h
      cases j with
      | zero =>
        simp only [List.getElem?_cons_zero] at hj
        injection hj with hj
        cases hj
        obtain ⟨t, ht⟩ := prepare_go_prefix _ _ _ _ _ _ _ _ _ _ h
        rw [List.append_assoc] at ht
        rw [Nat.add_zero, ht, hi]
        simp only [List.singleton_append]
        rw [getElem?_append_cons, getStep_result]
      | succ j' =>
        simp only [List.getElem?_cons_succ] at hj
        have hlen : i + 1 = (r0 ++ [match alGet (alViv st.data ns0 []).2 key0 with
            | some it => BResult.item it
            | none => BResult.null]).length := by
          simp [hi]
        have := ih _ _ _ _ _ _ _ _ _ h hlen j' ns key hj
        have harith : i + 1 + j' = i + (j' + 1) := by omega
        rw [harith] at this
        rw [this]
        congr 2
        exact dataLookup_vivExt (alViv_vivExt st.data ns0) ns key
    | search sop =>
      simp only [prepare_ops.go] at h
      cases hf : filter_items st sop with
      | error e => rw [hf] at h; cases h
      | ok r =>
        rw [hf] at h
        dsimp only at h
        cases j with
        | zero => simp at hj
        | succ j' =>
          simp only [List.getElem?_cons_succ] at hj
          have hlen : i + 1 = (r0 ++ [BResult.null]).length := by simp [hi]
          have := ih _ _ _ _ _ _ _ _ _ h hlen j' ns key hj
          have harith : i + 1 + j' = i + (j' + 1) := by omega
          rw [harith] at this
          rw [this]
          congr 2
          rw [(filter_items_spec st sop hf).1]
    | listNs conds maxDepth limit offset =>
      simp only [prepare_ops.go] at h
      cases hl : handle_list_namespaces st conds maxDepth limit offset with
      | error e => rw [hl] at h; cases h
      | ok l =>
        rw [hl] at h
        dsimp only at h
        cases j with
        | zero => simp at hj
        | succ j' =>
          simp only [List.getElem?_cons_succ] at hj
          have hlen : i + 1 = (r0 ++ [BResult.nss l]).length := by simp [hi]
          have := ih _ _ _ _ _ _ _ _ _ h hlen j' ns key hj
          have harith : i + 1 + j' = i + (j' + 1) := by omega
          rw [harith] at this
          exact this
    | put p =>
      simp only [prepare_ops.go] at h
      cases j with
      | zero => simp at hj
      | succ j' =>
        simp only [List.getElem?_cons_succ] at hj
        have hlen : i + 1 = (r0 ++ [BResult.null]).length := by simp [hi]
        have := ih _ _ _ _ _ _ _ _ _ h hlen j' ns key hj
        have harith : i + 1 + j' = i + (j' + 1) := by omega
        rw [harith] at this
        exact this

theorem prepare_go_search_indices :
    ∀ (ops : List Op) (st : Store) (i : Nat) (r0 : List BResult)
      (p0 : List ((Ns × String) × PutRec))
      (s0 : List (Nat × SearchOp × List (Item × List Vec)))
      (results : List BResult) (puts : List ((Ns × String) × PutRec))
      (searches : List (Nat × SearchOp × List (Item × List Vec)))
      (st' : Store),
      prepare_ops.go st ops i r0 p0 s0 = .ok (results, puts, searches, st') →
      ∀ e ∈ searches, e ∈ s0 ∨
        (i ≤ e.1 ∧ ∃ sop, ops[e.1 - i]? = some (.search sop)) := by
  intro ops
  induction ops with
  | nil =>
    intro st i r0 p0 s0 results puts searches st' h e he
    simp only [prepare_ops.go] at h
    injection h with h
    injection h with _ h
    injection h with _ h
    injection h with h2 _
    subst h2
    exact Or.inl he
  | cons op rest ih =>
    intro st i r0 p0 s0 results puts searches st' h e he
    have step : ∀ (st1 : Store) (r1 : List BResult)
        (p1 : List ((Ns × String) × PutRec)),
        prepare_ops.go st1 rest (i + 1) r1 p1 s0
            = .ok (results, puts, searches, st') →
        e ∈ s0 ∨ (i ≤ e.1 ∧ ∃ sop, (op :: rest)[e.1 - i]? = some (.search sop)) := by
      intro st1 r1 p1 h1
      rcases ih _ _ _ _ _ _ _ _ _ h1 e he with h2 | ⟨hle, sop, hsop⟩
      · exact Or.inl h2
      · right
        refine ⟨by omega, sop, ?_⟩
        have harith : e.1 - i = (e.1 - (i + 1)) + 1 := by omega
        rw [harith, List.getElem?_cons_succ]
        exact hsop
    cases op with
    | get ns0 key0 =>
      simp only [prepare_ops.go] at h
      exact step _ _ _ h
    | put p =>
      simp only [prepare_ops.go] at h
      exact step _ _ _ h
    | listNs conds maxDepth limit offset =>
      simp only [prepare_ops.go] at h
      cases hl : handle_list_namespaces st conds maxDepth limit offset with
      | error e2 => rw [hl] at h; cases h
      | ok l =>
        rw [hl] at h
        dsimp only at h
        exact step _ _ _ h
    | search sop =>
      simp only [prepare_ops.go] at h
      cases hf : filter_items st sop with
      | error e2 => rw [hf] at h; cases h
      | ok r =>
        rw [hf] at h
        dsimp only at h
        rcases ih _ _ _ _ _ _ _ _ _ h e he with h2 | ⟨hle, sop2, hsop⟩
        · rcases List.mem_append.mp h2 with h3 | h3
          · exact Or.inl h3
          · simp only [List.mem_singleton] at h3
            subst h3
            right
            exact ⟨le_refl _, sop, by simp⟩
        · right
          refine ⟨by omega, sop2, ?_⟩
          have harith : e.1 - i = (e.1 - (i + 1)) + 1 := by omega
          rw [harith, List.getElem?_cons_succ]
          exact hsop

theorem batch_search_untouched :
    ∀ (sops : List (Nat × SearchOp × List (Item × List Vec)))
      (cos : Vec → List Vec → List ℚ) (qstore : List (String × Vec))
      (results results' : List BResult),
      batch_search cos sops qstore results = .ok results' →
      ∀ j, (∀ e ∈ sops, e.1 ≠ j) → results'[j]? = results[j]? := by
  intro sops
  induction sops with
  | nil =>
    intro cos qstore results results' h j _
    simp only [batch_search] at h
    injection h with h
    rw [h]
  | cons entry rest ih =>
    intro cos qstore results results' h j hj
    obtain ⟨i, op, cands⟩ := entry
    have hij : i ≠ j := hj (i, op, cands) (List.mem_cons_self _ _)
    have hrest : ∀ e ∈ rest, e.1 ≠ j :=
      fun e he => hj e (List.mem_cons_of_mem _ he)
    simp only [batch_search] at h
    cases cands with
    | nil =>
      rw [ih _ _ _ _ h j hrest, List.getElem?_set_ne hij]
    | cons c cs =>
      by_cases hq : queryTruthy op.query
      · rw [if_pos hq] at h
        cases halg : alGet qstore (op.query.getD "") with
        | none => rw [halg] at h; cases h
        | some qv =>
          rw [halg] at h
          dsimp only at h
          rw [ih _ _ _ _ h j hrest, List.getElem?_set_ne hij]
      · rw [if_neg hq] at h
        rw [ih _ _ _ _ h j hrest, List.getElem?_set_ne hij]

theorem batch_decomp (cfg : Option EmbedConfig)
    (cos : Vec → List Vec → List ℚ) (gwDocs : List String → List Vec)
    (gwQuery : String → Vec) (now : Nat) (st : Store) (ops : List Op)
    {results : List BResult} {st' : Store}
    (hb : batch cfg cos gwDocs gwQuery now st ops = .ok (results, st')) :
    ∃ results0 puts searches st1 st2,
      prepare_ops st ops = .ok (results0, puts, searches, st1) ∧
      ((searches = [] ∧ results = results0) ∨
        batch_search cos searches
          (embed_search_queries cfg gwQuery searches) results0
          = .ok results) ∧
      st2.data = st1.data ∧
      (st2 = st1 ∨
        insertinmem_store (extract_texts cfg puts)
            (gwDocs ((extract_texts cfg puts).map Prod.fst)) st1.inmem_store
          = .ok st2.inmem_store) ∧
      st' = apply_put_ops now st2 puts := by
  rw [batch] at hb
  cases hp : prepare_ops st ops with
  | error e => rw [hp] at hb; cases hb
  | ok out =>
    rw [hp] at hb
    obtain ⟨results0, puts, searches, st1⟩ := out
    dsimp only at hb
    refine ⟨results0, puts, searches, st1, ?_⟩
    have hres : ∀ results1,
        (match searches with
          | [] => (.ok results0 : Except String (List BResult))
          | _ =>
            batch_search cos searches
              (embed_search_queries cfg gwQuery searches) results0)
          = .ok results1 →
        (searches = [] ∧ results1 = results0) ∨
          batch_search cos searches
            (embed_search_queries cfg gwQuery searches) results0
            = .ok results1 := by
      intro results1 h1
      cases searches with
      | nil =>
        left
        refine ⟨rfl, ?_⟩
        injection h1 with h1
        rw [h1]
      | cons s ss => exact Or.inr h1
    cases hre : (match searches with
      | [] => (.ok results0 : Except String (List BResult))
      | _ =>
        batch_search cos searches
          (embed_search_queries cfg gwQuery searches) results0) with
    | error e => rw [hre] at hb; cases hb
    | ok results1 =>
      rw [hre] at hb
      dsimp only at hb
      have hins : ∀ st2E,
          (match extract_texts cfg puts, cfg with
            | [], _ => (.ok st1 : Except String Store)
            | _, none => .ok st1
            | _, some _ =>
              match insertinmem_store (extract_texts cfg puts)
                  (gwDocs ((extract_texts cfg puts).map Prod.fst))
                  st1.inmem_store with
              | .error e => .error e
              | .ok inm => .ok { st1 with inmem_store := inm })
            = .ok st2E →
          st2E.data = st1.data ∧
            (st2E = st1 ∨
              insertinmem_store (extract_texts cfg puts)
                  (gwDocs ((extract_texts cfg puts).map Prod.fst))
                  st1.inmem_store
                = .ok st2E.inmem_store) := by
        intro st2E h2
        cases hte : extract_texts cfg puts with
        | nil =>
          rw [hte] at h2
          cases cfg with
          | none =>
            have h2' : Except.ok st1 = Except.ok st2E := h2
            injection h2' with h2'
            subst h2'
            exact ⟨rfl, Or.inl rfl⟩
          | some c =>
            have h2' : Except.ok st1 = Except.ok st2E := h2
            injection h2' with h2'
            subst h2'
            exact ⟨rfl, Or.inl rfl⟩
        | cons te tes =>
          rw [hte] at h2
          cases cfg with
          | none =>
            have h2' : Except.ok st1 = Except.ok st2E := h2
            injection h2' with h2'
            subst h2'
            exact ⟨rfl, Or.inl rfl⟩
          | some c =>
            dsimp only at h2
            cases hi : insertinmem_store (te :: tes)
                (gwDocs ((te :: tes).map Prod.fst)) st1.inmem_store with
            | error e => rw [hi] at h2; cases h2
            | ok inm =>
              rw [hi] at h2
              injection h2 with h2
              subst h2
              exact ⟨rfl, Or.inr rfl⟩
      cases hst2 : (match extract_texts cfg puts, cfg with
        | [], _ => (.ok st1 : Except String Store)
        | _, none => .ok st1
        | _, some _ =>
          match insertinmem_store (extract_texts cfg puts)
              (gwDocs ((extract_texts cfg puts).map Prod.fst))
              st1.inmem_store with
          | .error e => .error e
          | .ok inm => .ok { st1 with inmem_store := inm }) with
      | error e => rw [hst2] at hb; cases hb
      | ok st2 =>
        rw [hst2] at hb
        dsimp only at hb
        injection hb with hb
        injection hb with hb1 hb2
        obtain ⟨hd, hor⟩ := hins st2 hst2
        refine ⟨st2, rfl, ?_, hd, hor, hb2.symm⟩
        rcases hres results1 hre with ⟨hnil, hre1⟩ | hre1
        · exact Or.inl ⟨hnil, by rw [← hb1]; exact hre1⟩
        · exact Or.inr (by rw [← hb1]; exact hre1)

theorem alGet_alViv_ne {K V : Type} [DecidableEq K] {l : List (K × V)}
    {k k' : K} (d : V) (h : k' ≠ k) :
    alGet (alViv l k d).1 k' = alGet l k' := by
  cases hd : alGet l k with
  | some v => rw [alViv_of_some d hd]
  | none =>
    rw [alViv_of_none d hd]
    cases h' : alGet l k' with
    | some w => exact alGet_append_left h'
    | none =>
      rw [alGet_append_right h']
      simp [alGet, Ne.symm h]

theorem alGet_alViv_self {K V : Type} [DecidableEq K] (l : List (K × V))
    (k : K) (d : V) :
    alGet (alViv l k d).1 k = some ((alViv l k d).2) := by
  cases hd : alGet l k with
  | some v => rw [alViv_of_some d hd]; exact hd
  | none =>
    rw [alViv_of_none d hd]
    rw [alGet_append_right hd]
    simp [alGet]

theorem alViv_snd {K V : Type} [DecidableEq K] (l : List (K × V)) (k : K)
    (d : V) : (alViv l k d).2 = (alGet l k).getD d := by
  cases hd : alGet l k with
  | some v => rw [alViv_of_some d hd]; rfl
  | none => rw [alViv_of_none d hd]; rfl

theorem alViv_nodupKeys {K V : Type} [DecidableEq K] {l : List (K × V)}
    (k : K) (d : V) (h : NodupKeys l) : NodupKeys (alViv l k d).1 := by
  cases hd : alGet l k with
  | some v => rw [alViv_of_some d hd]; exact h
  | none =>
    rw [alViv_of_none d hd]
    exact nodupKeys_append_single d h hd

theorem alViv_mem {K V : Type} [DecidableEq K] {l : List (K × V)} {k : K}
    {d : V} {p : K × V} (hp : p ∈ (alViv l k d).1) : p ∈ l ∨ p = (k, d) := by
  cases hd : alGet l k with
  | some v =>
    rw [alViv_of_some d hd] at hp
    exact Or.inl hp
  | none =>
    rw [alViv_of_none d hd] at hp
    rcases List.mem_append.mp hp with hp | hp
    · exact Or.inl hp
    · simp only [List.mem_singleton] at hp
      exact Or.inr hp

theorem WF_of_vivExt {st : Store} {d' : List (Ns × List (String × Item))}
    {inm' : List (Ns × List (String × List (String × Vec)))}
    (hd : VivExt st.data d') (hi : VivExt st.inmem_store inm')
    (h : st.WF) : Store.WF ⟨d', inm'⟩ := by
  obtain ⟨h1, h2, h3, h4, h5⟩ := h
  refine ⟨hd.2 h1, ?_, hi.2 h3, ?_, ?_⟩
  · intro p hp
    rcases vivExt_mem hd hp with hp | hp
    · exact h2 p hp
    · rw [hp]; exact List.nodup_nil
  · intro p hp
    rcases vivExt_mem hi hp with hp | hp
    · exact h4 p hp
    · rw [hp]; exact List.nodup_nil
  · intro p hp q hq
    rcases vivExt_mem hi hp with hp | hp
    · exact h5 p hp q hq
    · rw [hp] at hq; cases hq

theorem prepare_go_WF :
    ∀ (ops : List Op) (st : Store) (i : Nat) (r0 : List BResult)
      (p0 : List ((Ns × String) × PutRec))
      (s0 : List (Nat × SearchOp × List (Item × List Vec)))
      (results : List BResult) (puts : List ((Ns × String) × PutRec))
      (searches : List (Nat × SearchOp × List (Item × List Vec)))
      (st' : Store),
      prepare_ops.go st ops i r0 p0 s0 = .ok (results, puts, searches, st') →
      st.WF → st'.WF := by
  intro ops
  induction ops with
  | nil =>
    intro st i r0 p0 s0 results puts searches st' h hwf
    simp only [prepare_ops.go] at h
    injection h with h
    injection h with _ h
    injection h with _ h
    injection h with _ h
    subst h
    exact hwf
  | cons op rest ih =>
    intro st i r0 p0 s0 results puts searches st' h hwf
    cases op with
    | get ns0 key0 =>
      simp only [prepare_ops.go] at h
      exact ih _ _ _ _ _ _ _ _ _ h
        (WF_of_vivExt (alViv_vivExt st.data ns0)
          (vivExt_refl st.inmem_store) hwf)
    | put p =>
      simp only [prepare_ops.go] at h
      exact ih _ _ _ _ _ _ _ _ _ h hwf
    | listNs conds maxDepth limit offset =>
      simp only [prepare_ops.go] at h
      cases hl : handle_list_namespaces st conds maxDepth limit offset with
      | error e => rw [hl] at h; cases h
      | ok l =>
        rw [hl] at h
        dsimp only at h
        exact ih _ _ _ _ _ _ _ _ _ h hwf
    | search sop =>
      simp only [prepare_ops.go] at h
      cases hf : filter_items st sop with
      | error e => rw [hf] at h; cases h
      | ok r =>
        rw [hf] at h
        dsimp only at h
        obtain ⟨r1, r2⟩ := r
        have hspec := filter_items_spec st sop hf
        have hwf1 : r1.WF := by
          have : Store.WF ⟨r1.data, r1.inmem_store⟩ := by
            rw [hspec.1]
            exact WF_of_vivExt (vivExt_refl st.data) hspec.2 hwf
          exact this
        exact ih _ _ _ _ _ _ _ _ _ h hwf1

theorem lastPutIn_cons_get (ns0 : Ns) (key0 : String) (rest : List Op)
    (ns : Ns) (key : String) :
    lastPutIn (.get ns0 key0 :: rest) ns key = lastPutIn rest ns key := by
  cases h : lastPutIn rest ns key with
  | some p => simp [lastPutIn, h]
  | none => simp [lastPutIn, h]

theorem lastPutIn_cons_search (sop : SearchOp) (rest : List Op) (ns : Ns)
    (key : String) :
    lastPutIn (.search sop :: rest) ns key = lastPutIn rest ns key := by
  cases h : lastPutIn rest ns key with
  | some p => simp [lastPutIn, h]
  | none => simp [lastPutIn, h]

theorem lastPutIn_cons_listNs (conds : List MatchCond)
    (maxDepth : Option Nat) (limit offset : Nat) (rest : List Op) (ns : Ns)
    (key : String) :
    lastPutIn (.listNs conds maxDepth limit offset :: rest) ns key
      = lastPutIn rest ns key := by
  cases h : lastPutIn rest ns key with
  | some p => simp [lastPutIn, h]
  | none => simp [lastPutIn, h]

theorem prepare_go_puts :
    ∀ (ops : List Op) (st : Store) (i : Nat) (r0 : List BResult)
      (p0 : List ((Ns × String) × PutRec))
      (s0 : List (Nat × SearchOp × List (Item × List Vec)))
      (results : List BResult) (puts : List ((Ns × String) × PutRec))
      (searches : List (Nat × SearchOp × List (Item × List Vec)))
      (st' : Store),
      prepare_ops.go st ops i r0 p0 s0 = .ok (results, puts, searches, st') →
      ∀ (ns : Ns) (key : String),
        (∀ p, lastPutIn ops ns key = some p →
          alGet puts (ns, key) = some p) ∧
        (lastPutIn ops ns key = none →
          alGet puts (ns, key) = alGet p0 (ns, key)) := by
  intro ops
  induction ops with
  | nil =>
    intro st i r0 p0 s0 results puts searches st' h ns key
    simp only [prepare_ops.go] at h
    injection h with h
    injection h with _ h
    injection h with h2 h
    subst h2
    constructor
    · intro p hp
      cases hp
    · intro _
      rfl
  | cons op rest ih =>
    intro st i r0 p0 s0 results puts searches st' h ns key
    cases op with
    | get ns0 key0 =>
      simp only [prepare_ops.go] at h
      rw [lastPutIn_cons_get]
      exact ih _ _ _ _ _ _ _ _ _ h ns key
    | search sop =>
      simp only [prepare_ops.go] at h
      cases hf : filter_items st sop with
      | error e => rw [hf] at h; cases h
      | ok r =>
        rw [hf] at h
        dsimp only at h
        rw [lastPutIn_cons_search]
        exact ih _ _ _ _ _ _ _ _ _ h ns key
    | listNs conds maxDepth limit offset =>
      simp only [prepare_ops.go] at h
      cases hl : handle_list_namespaces st conds maxDepth limit offset with
      | error e => rw [hl] at h; cases h
      | ok l =>
        rw [hl] at h
        dsimp only at h
        rw [lastPutIn_cons_listNs]
        exact ih _ _ _ _ _ _ _ _ _ h ns key
    | put q =>
      simp only [prepare_ops.go] at h
      have inst := ih _ _ _ _ _ _ _ _ _ h ns key
      constructor
      · intro p hp
        rw [lastPutIn] at hp
        cases hrest : lastPutIn rest ns key with
        | some p2 =>
          rw [hrest] at hp
          injection hp with hp
          subst hp
          exact inst.1 p2 hrest
        | none =>
          rw [hrest] at hp
          dsimp only at hp
          by_cases hq : q.ns = ns ∧ q.key = key
          · rw [if_pos hq] at hp
            injection hp with hp
            subst hp
            rw [inst.2 hrest]
            have hk : (q.ns, q.key) = (ns, key) := by
              rw [hq.1, hq.2]
            rw [← hk]
            exact alGet_alSet_self p0 (q.ns, q.key) q
          · rw [if_neg hq] at hp
            cases hp
      · intro hnone
        rw [lastPutIn] at hnone
        cases hrest : lastPutIn rest ns key with
        | some p2 => rw [hrest] at hnone; cases hnone
        | none =>
          rw [hrest] at hnone
          dsimp only at hnone
          by_cases hq : q.ns = ns ∧ q.key = key
          · rw [if_pos hq] at hnone; cases hnone
          · rw [inst.2 hrest]
            rw [alGet_alSet_ne]
            intro he
            injection he with he1 he2
            exact hq ⟨he1.symm, he2.symm⟩

theorem prepare_go_puts_shape :
    ∀ (ops : List Op) (st : Store) (i : Nat) (r0 : List BResult)
      (p0 : List ((Ns × String) × PutRec))
      (s0 : List (Nat × SearchOp × List (Item × List Vec)))
      (results : List BResult) (puts : List ((Ns × String) × PutRec))
      (searches : List (Nat × SearchOp × List (Item × List Vec)))
      (st' : Store),
      prepare_ops.go st ops i r0 p0 s0 = .ok (results, puts, searches, st') →
      (∀ e ∈ p0, e.2.ns = e.1.1 ∧ e.2.key = e.1.2) → NodupKeys p0 →
      (∀ e ∈ puts, e.2.ns = e.1.1 ∧ e.2.key = e.1.2) ∧ NodupKeys puts := by
  intro ops
  induction ops with
  | nil =>
    intro st i r0 p0 s0 results puts searches st' h hshape hnd
    simp only [prepare_ops.go] at h
    injection h with h
    injection h with _ h
    injection h with h2 h
    subst h2
    exact ⟨hshape, hnd⟩
  | cons op rest ih =>
    intro st i r0 p0 s0 results puts searches st' h hshape hnd
    cases op with
    | get ns0 key0 =>
      simp only [prepare_ops.go] at h
      exact ih _ _ _ _ _ _ _ _ _ h hshape hnd
    | search sop =>
      simp only [prepare_ops.go] at h
      cases hf : filter_items st sop with
      | error e => rw [hf] at h; cases h
      | ok r =>
        rw [hf] at h
        dsimp only at h
        exact ih _ _ _ _ _ _ _ _ _ h hshape hnd
    | listNs conds maxDepth limit offset =>
      simp only [prepare_ops.go] at h
      cases hl : handle_list_namespaces st conds maxDepth limit offset with
      | error e => rw [hl] at h; cases h
      | ok l =>
        rw [hl] at h
        dsimp only at h
        exact ih _ _ _ _ _ _ _ _ _ h hshape hnd
    | put q =>
      simp only [prepare_ops.go] at h
      refine ih _ _ _ _ _ _ _ _ _ h ?_ (nodupKeys_alSet _ _ hnd)
      intro e he
      rcases mem_alSet he with he | he
      · exact hshape e he
      · rw [he]
        exact ⟨rfl, rfl⟩

theorem apply_put_ops_cons (now : Nat) (st : Store)
    (e : (Ns × String) × PutRec) (rest : List ((Ns × String) × PutRec)) :
    apply_put_ops now st (e :: rest)
      = apply_put_ops now (apply_put now st e) rest := rfl

theorem dataLookup_al2 (d : List (Ns × List (String × Item))) (ns : Ns)
    (key : String) : dataLookup d ns key = al2 d ns key := by
  cases h : alGet d ns <;> simp [dataLookup, al2, h]

theorem docLookup_al2 (st : Store) (ns : Ns) (key : String) :
    docLookup st ns key = al2 st.data ns key := by
  cases h : alGet st.data ns <;> simp [docLookup, al2, h]

theorem vecLookup_al2 (st : Store) (ns : Ns) (key : String) :
    vecLookup st ns key = al2 st.inmem_store ns key := by
  cases h : alGet st.inmem_store ns <;> simp [vecLookup, al2, h]

theorem vecMapLookup_al2 (m : List (Ns × List (String × List (String × Vec))))
    (ns : Ns) (key : String) : vecMapLookup m ns key = al2 m ns key := by
  cases h : alGet m ns <;> simp [vecMapLookup, al2, h]

theorem al2_update_other {V : Type} (m : List (Ns × List (String × V)))
    (n0 ns : Ns) (key : String) (X : List (String × V)) (hn : ns ≠ n0) :
    al2 (alSet (alViv m n0 []).1 n0 X) ns key = al2 m ns key := by
  rw [al2, alGet_alSet_ne _ X hn, alGet_alViv_ne _ hn, al2]

theorem al2_update_same {V : Type} (m : List (Ns × List (String × V)))
    (n0 : Ns) (key : String) (X : List (String × V)) :
    al2 (alSet (alViv m n0 []).1 n0 X) n0 key = alGet X key := by
  rw [al2, alGet_alSet_self]

theorem alGet_viv_snd {V : Type} (m : List (Ns × List (String × V)))
    (n0 : Ns) (key : String) :
    alGet (alViv m n0 []).2 key = al2 m n0 key := by
  rw [alViv_snd, al2]
  cases alGet m n0 with
  | some d => rfl
  | none => rfl

theorem viv_snd_nodup {K A B : Type} [DecidableEq K]
    {m : List (K × List (A × B))} (k : K)
    (h : ∀ p ∈ m, NodupKeys p.2) : NodupKeys (alViv m k []).2 := by
  rw [alViv_snd]
  cases hd : alGet m k with
  | some d => exact h (k, d) (alGet_mem hd)
  | none => exact List.nodup_nil

theorem apply_put_doc (now : Nat) (st : Store) (k0 : Ns × String)
    (p : PutRec) (ns : Ns) (key : String) (hwf : st.WF) :
    docLookup (apply_put now st (k0, p)) ns key
      = if k0 = (ns, key) then
          (match p.value with
            | some v => some ⟨v, key, ns, now, now⟩
            | none => none)
        else docLookup st ns key := by
  obtain ⟨n0, k0k⟩ := k0
  by_cases hk : (n0, k0k) = (ns, key)
  · rw [if_pos hk]
    injection hk with h1 h2
    subst h1
    subst h2
    cases hv : p.value with
    | none =>
      simp only [apply_put, hv]
      rw [docLookup_al2]
      dsimp only
      rw [al2_update_same]
      exact alGet_alPop_self (viv_snd_nodup n0 hwf.2.1)
    | some v =>
      simp only [apply_put, hv]
      rw [docLookup_al2]
      dsimp only
      rw [al2_update_same, alGet_alSet_self]
  · rw [if_neg hk]
    by_cases hn : ns = n0
    · subst hn
      have hkk : key ≠ k0k := by
        intro he
        exact hk (by rw [he])
      cases hv : p.value with
      | none =>
        simp only [apply_put, hv]
        rw [docLookup_al2]
        dsimp only
        rw [al2_update_same, alGet_alPop_ne _ hkk, alGet_viv_snd,
          docLookup_al2]
      | some v =>
        simp only [apply_put, hv]
        rw [docLookup_al2]
        dsimp only
        rw [al2_update_same, alGet_alSet_ne _ _ hkk, alGet_viv_snd,
          docLookup_al2]
    · cases hv : p.value with
      | none =>
        simp only [apply_put, hv]
        rw [docLookup_al2]
        dsimp only
        rw [al2_update_other _ _ _ _ _ hn, docLookup_al2]
      | some v =>
        simp only [apply_put, hv]
        rw [docLookup_al2]
        dsimp only
        rw [al2_update_other _ _ _ _ _ hn, docLookup_al2]

theorem apply_put_vec (now : Nat) (st : Store) (k0 : Ns × String)
    (p : PutRec) (ns : Ns) (key : String) (hwf : st.WF) :
    vecLookup (apply_put now st (k0, p)) ns key
      = if k0 = (ns, key) then
          (match p.value with
            | some _ => vecLookup st ns key
            | none => none)
        else vecLookup st ns key := by
  obtain ⟨n0, k0k⟩ := k0
  by_cases hk : (n0, k0k) = (ns, key)
  · rw [if_pos hk]
    injection hk with h1 h2
    subst h1
    subst h2
    cases hv : p.value with
    | none =>
      simp only [apply_put, hv]
      rw [vecLookup_al2]
      dsimp only
      rw [al2_update_same]
      exact alGet_alPop_self (viv_snd_nodup n0 hwf.2.2.2.1)
    | some v =>
      simp only [apply_put, hv]
      rw [vecLookup_al2]
      dsimp only
      rw [vecLookup_al2]
  · rw [if_neg hk]
    cases hv : p.value with
    | none =>
      by_cases hn : ns = n0
      · subst hn
        have hkk : key ≠ k0k := by
          intro he
          exact hk (by rw [he])
        simp only [apply_put, hv]
        rw [vecLookup_al2]
        dsimp only
        rw [al2_update_same, alGet_alPop_ne _ hkk, alGet_viv_snd,
          vecLookup_al2]
      · simp only [apply_put, hv]
        rw [vecLookup_al2]
        dsimp only
        rw [al2_update_other _ _ _ _ _ hn, vecLookup_al2]
    | some v =>
      simp only [apply_put, hv]
      rw [vecLookup_al2]
      dsimp only
      rw [vecLookup_al2]

theorem apply_put_WF (now : Nat) (st : Store) (e : (Ns × String) × PutRec)
    (hwf : st.WF) : (apply_put now st e).WF := by
  obtain ⟨⟨n0, k0k⟩, p⟩ := e
  obtain ⟨h1, h2, h3, h4, h5⟩ := hwf
  have hdv := alViv_vivExt st.data n0
  have hiv := alViv_vivExt st.inmem_store n0
  cases hv : p.value with
  | none =>
    simp only [apply_put, hv]
    refine ⟨?_, ?_, ?_, ?_, ?_⟩
    · exact nodupKeys_alSet _ _ (hdv.2 h1)
    · intro q hq
      rcases mem_alSet hq with hq | hq
      · rcases vivExt_mem hdv hq with hq | hq
        · exact h2 q hq
        · rw [hq]; exact List.nodup_nil
      · rw [hq]
        exact nodupKeys_alPop _ (viv_snd_nodup n0 h2)
    · exact nodupKeys_alSet _ _ (hiv.2 h3)
    · intro q hq
      rcases mem_alSet hq with hq | hq
      · rcases vivExt_mem hiv hq with hq | hq
        · exact h4 q hq
        · rw [hq]; exact List.nodup_nil
      · rw [hq]
        exact nodupKeys_alPop _ (viv_snd_nodup n0 h4)
    · intro q hq r hr
      rcases mem_alSet hq with hq | hq
      · rcases vivExt_mem hiv hq with hq | hq
        · exact h5 q hq r hr
        · rw [hq] at hr; cases hr
      · rw [hq] at hr
        have hr2 := mem_alPop hr
        rw [alViv_snd] at hr2
        cases hd : alGet st.inmem_store n0 with
        | some d =>
          rw [hd] at hr2
          exact h5 (n0, d) (alGet_mem hd) r hr2
        | none =>
          rw [hd] at hr2
          cases hr2
  | some v =>
    simp only [apply_put, hv]
    refine ⟨?_, ?_, h3, h4, h5⟩
    · exact nodupKeys_alSet _ _ (hdv.2 h1)
    · intro q hq
      rcases mem_alSet hq with hq | hq
      · rcases vivExt_mem hdv hq with hq | hq
        · exact h2 q hq
        · rw [hq]; exact List.nodup_nil
      · rw [hq]
        exact nodupKeys_alSet _ _ (viv_snd_nodup n0 h2)

theorem apply_put_ops_WF (now : Nat) :
    ∀ (puts : List ((Ns × String) × PutRec)) (st : Store), st.WF →
      (apply_put_ops now st puts).WF := by
  intro puts
  induction puts with
  | nil => intro st h; exact h
  | cons e rest ih =>
    intro st h
    exact ih _ (apply_put_WF now st e h)

theorem apply_put_ops_doc_frame (now : Nat) :
    ∀ (puts : List ((Ns × String) × PutRec)) (st : Store) (ns : Ns)
      (key : String), st.WF → (ns, key) ∉ puts.map Prod.fst →
      docLookup (apply_put_ops now st puts) ns key = docLookup st ns key := by
  intro puts
  induction puts with
  | nil => intro st ns key _ _; rfl
  | cons e rest ih =>
    intro st ns key hwf hmem
    simp only [List.map_cons, List.mem_cons] at hmem
    push_neg at hmem
    obtain ⟨⟨n0, k0k⟩, p⟩ := e
    have step : docLookup (apply_put now st ((n0, k0k), p)) ns key
        = docLookup st ns key := by
      rw [apply_put_doc now st (n0, k0k) p ns key hwf,
        if_neg (fun he => hmem.1 he.symm)]
    rw [apply_put_ops_cons]
    rw [ih _ ns key (apply_put_WF now st _ hwf) hmem.2, step]

theorem apply_put_ops_vec_frame (now : Nat) :
    ∀ (puts : List ((Ns × String) × PutRec)) (st : Store) (ns : Ns)
      (key : String), st.WF → (ns, key) ∉ puts.map Prod.fst →
      vecLookup (apply_put_ops now st puts) ns key = vecLookup st ns key := by
  intro puts
  induction puts with
  | nil => intro st ns key _ _; rfl
  | cons e rest ih =>
    intro st ns key hwf hmem
    simp only [List.map_cons, List.mem_cons] at hmem
    push_neg at hmem
    obtain ⟨⟨n0, k0k⟩, p⟩ := e
    have step : vecLookup (apply_put now st ((n0, k0k), p)) ns key
        = vecLookup st ns key := by
      rw [apply_put_vec now st (n0, k0k) p ns key hwf,
        if_neg (fun he => hmem.1 he.symm)]
    rw [apply_put_ops_cons]
    rw [ih _ ns key (apply_put_WF now st _ hwf) hmem.2, step]

theorem apply_put_ops_effect (now : Nat) :
    ∀ (puts : List ((Ns × String) × PutRec)) (st : Store) (ns : Ns)
      (key : String) (p : PutRec), st.WF → NodupKeys puts →
      alGet puts (ns, key) = some p →
      docLookup (apply_put_ops now st puts) ns key
          = (match p.value with
            | some v => some ⟨v, key, ns, now, now⟩
            | none => none) ∧
        vecLookup (apply_put_ops now st puts) ns key
          = (match p.value with
            | some _ => vecLookup st ns key
            | none => none) := by
  intro puts
  induction puts with
  | nil => intro st ns key p _ _ hget; cases hget
  | cons e rest ih =>
    intro st ns key p hwf hnd hget
    obtain ⟨⟨n0, k0k⟩, q⟩ := e
    have hnd2 : NodupKeys rest := by
      simp only [NodupKeys, List.map_cons, List.nodup_cons] at hnd
      exact hnd.2
    by_cases hk : (n0, k0k) = (ns, key)
    · have hq : q = p := by
        rw [alGet] at hget
        rw [if_pos hk] at hget
        injection hget with hget
      subst hq
      have hnot : (ns, key) ∉ rest.map Prod.fst := by
        simp only [NodupKeys, List.map_cons, List.nodup_cons] at hnd
        rw [← hk]
        exact hnd.1
      have hwf1 := apply_put_WF now st ((n0, k0k), q) hwf
      rw [apply_put_ops_cons]
      constructor
      · rw [apply_put_ops_doc_frame now rest _ ns key hwf1 hnot]
        rw [apply_put_doc now st (n0, k0k) q ns key hwf, if_pos hk]
      · rw [apply_put_ops_vec_frame now rest _ ns key hwf1 hnot]
        rw [apply_put_vec now st (n0, k0k) q ns key hwf, if_pos hk]
    · have hget2 : alGet rest (ns, key) = some p := by
        rw [alGet, if_neg hk] at hget
        exact hget
      have hwf1 := apply_put_WF now st ((n0, k0k), q) hwf
      have := ih (apply_put now st ((n0, k0k), q)) ns key p hwf1 hnd2 hget2
      rw [apply_put_ops_cons]
      refine ⟨this.1, ?_⟩
      rw [this.2]
      cases p.value with
      | none => rfl
      | some v =>
        rw [apply_put_vec now st (n0, k0k) q ns key hwf, if_neg hk]

theorem inmSet_frame (inm : List (Ns × List (String × List (String × Vec))))
    (ns : Ns) (key path : String) (vec : Vec) (ns2 : Ns) (key2 : String)
    (hne : (ns2, key2) ≠ (ns, key)) :
    al2 (inmSet inm ns key path vec) ns2 key2 = al2 inm ns2 key2 := by
  by_cases hn : ns2 = ns
  · subst hn
    have hkk : key2 ≠ key := by
      intro he
      exact hne (by rw [he])
    rw [inmSet]
    rw [al2_update_same, alGet_alSet_ne _ _ hkk, alGet_alViv_ne _ hkk,
      alGet_viv_snd]
  · rw [inmSet]
    rw [al2_update_other _ _ _ _ _ hn]

theorem inmSet_WF (inm : List (Ns × List (String × List (String × Vec))))
    (ns : Ns) (key path : String) (vec : Vec)
    (h3 : NodupKeys inm) (h4 : ∀ p ∈ inm, NodupKeys p.2)
    (h5 : ∀ p ∈ inm, ∀ q ∈ p.2, NodupKeys q.2) :
    NodupKeys (inmSet inm ns key path vec) ∧
      (∀ p ∈ inmSet inm ns key path vec, NodupKeys p.2) ∧
      (∀ p ∈ inmSet inm ns key path vec, ∀ q ∈ p.2, NodupKeys q.2) := by
  have hp1nd : NodupKeys (alViv inm ns ([] :
      List (String × List (String × Vec)))).2 := viv_snd_nodup ns h4
  have hp1mem : ∀ q ∈ (alViv inm ns ([] :
      List (String × List (String × Vec)))).2, NodupKeys q.2 := by
    intro q hq
    rw [alViv_snd] at hq
    cases hd : alGet inm ns with
    | some d =>
      rw [hd] at hq
      exact h5 (ns, d) (alGet_mem hd) q hq
    | none =>
      rw [hd] at hq
      cases hq
  rw [inmSet]
  refine ⟨?_, ?_, ?_⟩
  · exact nodupKeys_alSet _ _ (alViv_nodupKeys ns [] h3)
  · intro p hp
    rcases mem_alSet hp with hp | hp
    · rcases alViv_mem hp with hp | hp
      · exact h4 p hp
      · rw [hp]; exact List.nodup_nil
    · rw [hp]
      exact nodupKeys_alSet _ _ (alViv_nodupKeys key [] hp1nd)
  · intro p hp q hq
    rcases mem_alSet hp with hp | hp
    · rcases alViv_mem hp with hp | hp
      · exact h5 p hp q hq
      · rw [hp] at hq; cases hq
    · rw [hp] at hq
      rcases mem_alSet hq with hq | hq
      · rcases alViv_mem hq with hq | hq
        · exact hp1mem q hq
        · rw [hq]; exact List.nodup_nil
      · rw [hq]
        exact nodupKeys_alSet _ _ (viv_snd_nodup key hp1mem)

theorem insert_fold_frame :
    ∀ (zips : List (Vec × Dest))
      (inm : List (Ns × List (String × List (String × Vec))))
      (ns : Ns) (key : String),
      (∀ pr ∈ zips, (pr.2.1, pr.2.2.1) ≠ (ns, key)) →
      al2 (zips.foldl (fun inm p => inmSet inm p.2.1 p.2.2.1 p.2.2.2 p.1) inm)
          ns key
        = al2 inm ns key := by
  intro zips
  induction zips with
  | nil => intro inm ns key _; rfl
  | cons pr rest ih =>
    intro inm ns key hne
    rw [List.foldl_cons]
    rw [ih _ ns key (fun p hp => hne p (List.mem_cons_of_mem _ hp))]
    exact inmSet_frame inm pr.2.1 pr.2.2.1 pr.2.2.2 pr.1 ns key
      (Ne.symm (hne pr (List.mem_cons_self _ _)))

theorem insert_fold_WF :
    ∀ (zips : List (Vec × Dest))
      (inm : List (Ns × List (String × List (String × Vec)))),
      NodupKeys inm → (∀ p ∈ inm, NodupKeys p.2) →
      (∀ p ∈ inm, ∀ q ∈ p.2, NodupKeys q.2) →
      NodupKeys (zips.foldl
          (fun inm p => inmSet inm p.2.1 p.2.2.1 p.2.2.2 p.1) inm) ∧
        (∀ p ∈ zips.foldl
            (fun inm p => inmSet inm p.2.1 p.2.2.1 p.2.2.2 p.1) inm,
          NodupKeys p.2) ∧
        (∀ p ∈ zips.foldl
            (fun inm p => inmSet inm p.2.1 p.2.2.1 p.2.2.2 p.1) inm,
          ∀ q ∈ p.2, NodupKeys q.2) := by
  intro zips
  induction zips with
  | nil => intro inm h3 h4 h5; exact ⟨h3, h4, h5⟩
  | cons pr rest ih =>
    intro inm h3 h4 h5
    rw [List.foldl_cons]
    obtain ⟨g3, g4, g5⟩ := inmSet_WF inm pr.2.1 pr.2.2.1 pr.2.2.2 pr.1 h3 h4 h5
    exact ih _ g3 g4 g5

theorem insertinmem_ok {te : List (String × List Dest)} {embs : List Vec}
    {inm inm' : List (Ns × List (String × List (String × Vec)))}
    (h : insertinmem_store te embs inm = .ok inm') :
    inm' = (List.zip embs (allDests te)).foldl
      (fun inm p => inmSet inm p.2.1 p.2.2.1 p.2.2.2 p.1) inm := by
  rw [insertinmem_store] at h
  by_cases hlen : ((te.map Prod.snd).flatten).length ≠ embs.length
  · rw [if_pos hlen] at h
    cases h
  · rw [if_neg hlen] at h
    injection h with h
    rw [← h]
    rfl

theorem allDests_cons (t : String) (ds : List Dest)
    (m : List (String × List Dest)) :
    allDests ((t, ds) :: m) = ds ++ allDests m := rfl

theorem mem_allDests_toEmbedAdd :
    ∀ (m : List (String × List Dest)) (t : String) (d x : Dest),
      x ∈ allDests (toEmbedAdd m t d) → x ∈ allDests m ∨ x = d := by
  intro m
  induction m with
  | nil =>
    intro t d x hx
    simp only [toEmbedAdd, allDests, List.map_cons, List.map_nil,
      List.flatten] at hx
    simp at hx
    exact Or.inr hx
  | cons p rest ih =>
    intro t d x hx
    obtain ⟨t', ds⟩ := p
    by_cases ht : t' = t
    · simp only [toEmbedAdd, if_pos ht] at hx
      rw [allDests_cons] at hx
      rcases List.mem_append.mp hx with hx | hx
      · rcases List.mem_append.mp hx with hx | hx
        · exact Or.inl (by rw [allDests_cons]; exact List.mem_append_left _ hx)
        · simp only [List.mem_singleton] at hx
          exact Or.inr hx
      · exact Or.inl (by rw [allDests_cons]; exact List.mem_append_right _ hx)
    · simp only [toEmbedAdd, if_neg ht] at hx
      rw [allDests_cons] at hx
      rcases List.mem_append.mp hx with hx | hx
      · exact Or.inl (by rw [allDests_cons]; exact List.mem_append_left _ hx)
      · rcases ih t d x hx with hx | hx
        · exact Or.inl (by rw [allDests_cons]; exact List.mem_append_right _ hx)
        · exact Or.inr hx

theorem foldl_allDests {β : Type} (P : Dest → Prop) :
    ∀ (L : List β)
      (f : List (String × List Dest) → β → List (String × List Dest)),
      (∀ m b, b ∈ L → ∀ x, x ∈ allDests (f m b) → x ∈ allDests m ∨ P x) →
      ∀ (m0 : List (String × List Dest)) (x : Dest),
        x ∈ allDests (L.foldl f m0) → x ∈ allDests m0 ∨ P x := by
  intro L
  induction L with
  | nil => intro f _ m0 x hx; exact Or.inl hx
  | cons b rest ih =>
    intro f hstep m0 x hx
    rw [List.foldl_cons] at hx
    rcases ih f (fun m b2 hb2 => hstep m b2 (List.mem_cons_of_mem _ hb2))
        (f m0 b) x hx with hx | hx
    · exact hstep m0 b (List.mem_cons_self _ _) x hx
    · exact Or.inr hx

theorem mem_allDests_extractOp (c : EmbedConfig) (op : PutRec)
    (m : List (String × List Dest)) (x : Dest)
    (h : x ∈ allDests (extractOp c op m)) :
    x ∈ allDests m ∨ (x.1 = op.ns ∧ x.2.1 = op.key ∧ op.value ≠ none) := by
  cases hv : op.value with
  | none =>
    rw [extractOp, hv] at h
    exact Or.inl h
  | some v =>
    rw [extractOp, hv] at h
    dsimp only at h
    by_cases hidx : op.index = some false
    · rw [if_pos hidx] at h
      exact Or.inl h
    · rw [if_neg hidx] at h
      refine foldl_allDests
        (fun y => y.1 = op.ns ∧ y.2.1 = op.key ∧ (some v : Option Doc) ≠ none)
        c.fields _ ?_ m x h
      intro m2 pf _ y hy
      cases hts : get_text_at_path v pf.2 with
      | nil =>
        rw [hts] at hy
        exact Or.inl hy
      | cons t ts =>
        rw [hts] at hy
        cases ts with
        | nil =>
          rcases mem_allDests_toEmbedAdd m2 t (op.ns, op.key, pf.1) y hy with
            hy | hy
          · exact Or.inl hy
          · right
            rw [hy]
            exact ⟨rfl, rfl, by intro hc; cases hc⟩
        | cons t2 ts2 =>
          refine foldl_allDests
            (fun y => y.1 = op.ns ∧ y.2.1 = op.key ∧
              (some v : Option Doc) ≠ none)
            ((t :: t2 :: ts2).enum) _ ?_ m2 y hy
          intro m3 ti _ z hz
          rcases mem_allDests_toEmbedAdd m3 ti.2
              (op.ns, op.key, pf.1 ++ "." ++ toString ti.1) z hz with hz | hz
          · exact Or.inl hz
          · right
            rw [hz]
            exact ⟨rfl, rfl, by intro hc; cases hc⟩

theorem mem_allDests_extract (cfg : Option EmbedConfig)
    (puts : List ((Ns × String) × PutRec)) (x : Dest)
    (h : x ∈ allDests (extract_texts cfg puts)) :
    ∃ e ∈ puts, x.1 = e.2.ns ∧ x.2.1 = e.2.key ∧ e.2.value ≠ none := by
  cases cfg with
  | none =>
    rw [extract_texts] at h
    cases h
  | some c =>
    cases puts with
    | nil =>
      have hnil : extract_texts (some c) [] = [] := rfl
      rw [hnil] at h
      cases h
    | cons e0 rest =>
      have hfold : extract_texts (some c) (e0 :: rest)
          = (e0 :: rest).foldl (fun m p => extractOp c p.2 m) [] := rfl
      rw [hfold] at h
      have := foldl_allDests
        (fun x => ∃ e ∈ e0 :: rest,
          x.1 = e.2.ns ∧ x.2.1 = e.2.key ∧ e.2.value ≠ none)
        (e0 :: rest) (fun m p => extractOp c p.2 m) ?_ [] x h
      · rcases this with hx | hx
        · cases hx
        · exact hx
      · intro m b hb y hy
        rcases mem_allDests_extractOp c b.2 m y hy with hy | hy
        · exact Or.inl hy
        · exact Or.inr ⟨b, hb, hy⟩

theorem mem_fst_alGet {K V : Type} [DecidableEq K] {l : List (K × V)} {k : K}
    (h : k ∈ l.map Prod.fst) : ∃ v, alGet l k = some v := by
  induction l with
  | nil => cases h
  | cons p t ih =>
    by_cases hp : p.1 = k
    · exact ⟨p.2, by simp [alGet, hp]⟩
    · simp only [List.map_cons, List.mem_cons] at h
      rcases h with h | h
      · exact absurd h.symm hp
      · obtain ⟨v, hv⟩ := ih h
        exact ⟨v, by simp [alGet, hp, hv]⟩

theorem prepare_go_ext :
    ∀ (ops : List Op) (st : Store) (i : Nat) (r0 : List BResult)
      (p0 : List ((Ns × String) × PutRec))
      (s0 : List (Nat × SearchOp × List (Item × List Vec)))
      (results : List BResult) (puts : List ((Ns × String) × PutRec))
      (searches : List (Nat × SearchOp × List (Item × List Vec)))
      (st' : Store),
      prepare_ops.go st ops i r0 p0 s0 = .ok (results, puts, searches, st') →
      VivExt st.data st'.data ∧ VivExt st.inmem_store st'.inmem_store := by
  intro ops
  induction ops with
  | nil =>
    intro st i r0 p0 s0 results puts searches st' h
    simp only [prepare_ops.go] at h
    injection h with h
    injection h with _ h
    injection h with _ h
    injection h with _ h
    subst h
    exact ⟨vivExt_refl _, vivExt_refl _⟩
  | cons op rest ih =>
    intro st i r0 p0 s0 results puts searches st' h
    cases op with
    | get ns0 key0 =>
      simp only [prepare_ops.go] at h
      have := ih _ _ _ _ _ _ _ _ _ h
      exact ⟨vivExt_trans (alViv_vivExt st.data ns0) this.1, this.2⟩
    | put p =>
      simp only [prepare_ops.go] at h
      exact ih _ _ _ _ _ _ _ _ _ h
    | listNs conds maxDepth limit offset =>
      simp only [prepare_ops.go] at h
      cases hl : handle_list_namespaces st conds maxDepth limit offset with
      | error e => rw [hl] at h; cases h
      | ok l =>
        rw [hl] at h
        dsimp only at h
        exact ih _ _ _ _ _ _ _ _ _ h
    | search sop =>
      simp only [prepare_ops.go] at h
      cases hf : filter_items st sop with
      | error e => rw [hf] at h; cases h
      | ok r =>
        rw [hf] at h
        dsimp only at h
        obtain ⟨r1, r2⟩ := r
        have hspec := filter_items_spec st sop hf
        have := ih _ _ _ _ _ _ _ _ _ h
        constructor
        · rw [← hspec.1]
          exact this.1
        · exact vivExt_trans hspec.2 this.2

theorem WF_insert_step {st1 st2 : Store} (hd2 : st2.data = st1.data)
    (hor : st2 = st1 ∨ ∃ te embs,
      insertinmem_store te embs st1.inmem_store = .ok st2.inmem_store)
    (hwf1 : st1.WF) : st2.WF := by
  obtain ⟨w1, w2, w3, w4, w5⟩ := hwf1
  rcases hor with rfl | ⟨te, embs, hins⟩
  · exact ⟨w1, w2, w3, w4, w5⟩
  · have hfold := insertinmem_ok hins
    have hfw := insert_fold_WF (List.zip embs (allDests te))
      st1.inmem_store w3 w4 w5
    refine ⟨?_, ?_, ?_, ?_, ?_⟩
    · rw [hd2]; exact w1
    · intro q hq; rw [hd2] at hq; exact w2 q hq
    · rw [hfold]; exact hfw.1
    · intro q hq; rw [hfold] at hq; exact hfw.2.1 q hq
    · intro q hq r hr; rw [hfold] at hq; exact hfw.2.2 q hq r hr

theorem batch_WF (cfg : Option EmbedConfig) (cos : Vec → List Vec → List ℚ)
    (gwDocs : List String → List Vec) (gwQuery : String → Vec) (now : Nat)
    (st : Store) (ops : List Op) {results : List BResult} {st' : Store}
    (hwf : st.WF)
    (hb : batch cfg cos gwDocs gwQuery now st ops = .ok (results, st')) :
    st'.WF := by
  obtain ⟨r0, puts, searches, st1, st2, hp, hres, hd2, hor, hst'⟩ :=
    batch_decomp cfg cos gwDocs gwQuery now st ops hb
  have hgo : prepare_ops.go st ops 0 [] [] []
      = .ok (r0, puts, searches, st1) := hp
  have hwf1 : st1.WF := prepare_go_WF ops st 0 [] [] [] _ _ _ _ hgo hwf
  have hwf2 : st2.WF := WF_insert_step hd2
    (hor.imp id (fun hins => ⟨_, _, hins⟩)) hwf1
  rw [hst']
  exact apply_put_ops_WF now puts st2 hwf2

theorem batch_lastPut_effect (cfg : Option EmbedConfig)
    (cos : Vec → List Vec → List ℚ) (gwDocs : List String → List Vec)
    (gwQuery : String → Vec) (now : Nat) (st : Store) (ops : List Op)
    {results : List BResult} {st' : Store} (ns : Ns) (key : String)
    (p : PutRec) (hwf : st.WF)
    (hb : batch cfg cos gwDocs gwQuery now st ops = .ok (results, st'))
    (hlast : lastPutIn ops ns key = some p) :
    docLookup st' ns key
        = (match p.value with
          | some v => some ⟨v, key, ns, now, now⟩
          | none => none) ∧
      (p.value = none → vecLookup st' ns key = none) := by
  obtain ⟨r0, puts, searches, st1, st2, hp, hres, hd2, hor, hst'⟩ :=
    batch_decomp cfg cos gwDocs gwQuery now st ops hb
  have hgo : prepare_ops.go st ops 0 [] [] []
      = .ok (r0, puts, searches, st1) := hp
  have hputs := (prepare_go_puts ops st 0 [] [] [] _ _ _ _ hgo ns key).1 p hlast
  have hnd : NodupKeys puts :=
    (prepare_go_puts_shape ops st 0 [] [] [] _ _ _ _ hgo
      (by intro e he; cases he) List.nodup_nil).2
  have hwf1 : st1.WF := prepare_go_WF ops st 0 [] [] [] _ _ _ _ hgo hwf
  have hwf2 : st2.WF := WF_insert_step hd2
    (hor.imp id (fun hins => ⟨_, _, hins⟩)) hwf1
  have heff := apply_put_ops_effect now puts st2 ns key p hwf2 hnd hputs
  subst hst'
  refine ⟨heff.1, ?_⟩
  intro hv
  rw [heff.2, hv]

theorem batch_single_get (cfg : Option EmbedConfig)
    (cos : Vec → List Vec → List ℚ) (gwDocs : List String → List Vec)
    (gwQuery : String → Vec) (now : Nat) (st : Store) (ns : Ns)
    (key : String) :
    batch cfg cos gwDocs gwQuery now st [.get ns key]
      = .ok ([renderGet (dataLookup st.data ns key)],
          ⟨(alViv st.data ns []).1, st.inmem_store⟩) := by
  cases cfg with
  | none =>
    simp only [batch, prepare_ops, prepare_ops.go, extract_texts,
      apply_put_ops, List.foldl_nil, List.nil_append]
    rw [getStep_result]
  | some c =>
    simp only [batch, prepare_ops, prepare_ops.go, extract_texts,
      apply_put_ops, List.foldl_nil, List.nil_append]
    rw [getStep_result]

theorem batch_single_delete (cfg : Option EmbedConfig)
    (cos : Vec → List Vec → List ℚ) (gwDocs : List String → List Vec)
    (gwQuery : String → Vec) (now : Nat) (st : Store) (ns : Ns)
    (key : String) (idx : Option Bool) :
    batch cfg cos gwDocs gwQuery now st [.put ⟨ns, key, none, idx⟩]
      = .ok ([.null], apply_put now st ((ns, key), ⟨ns, key, none, idx⟩)) := by
  cases cfg with
  | none =>
    simp only [batch, prepare_ops, prepare_ops.go, extract_texts, alSet,
      apply_put_ops, List.foldl_cons, List.foldl_nil, List.nil_append]
  | some c =>
    simp only [batch, prepare_ops, prepare_ops.go, extract_texts, extractOp,
      alSet, apply_put_ops, List.foldl_cons, List.foldl_nil, List.nil_append]

end PipelineLemmas

/-- C5: amended — a `Get` anywhere in a batch returns the pre-batch value of
its key, whatever `Put`s the same batch carries (writes are applied only
after all reads are resolved); the original claim's stronger statement that
every read — including `ListNamespaces` — observes the start-of-batch state
is refuted by `c5_counterexample`, since auto-vivification from an earlier
`Get` is visible to a later `ListNamespaces` of the same batch. -/
theorem c5_get_reads_pre_batch (cfg : Option EmbedConfig)
    (cos : Vec → List Vec → List ℚ) (gwDocs : List String → List Vec)
    (gwQuery : String → Vec) (now : Nat) (st : Store) (ops : List Op)
    (results : List BResult) (st' : Store) (i : Nat) (ns : Ns) (key : String)
    (hop : ops[i]? = some (.get ns key))
    (hb : batch cfg cos gwDocs gwQuery now st ops = .ok (results, st')) :
    results[i]? = some (renderGet (docLookup st ns key)) := by
  obtain ⟨results0, puts, searches, st1, st2, hp, hres, _, _, _⟩ :=
    batch_decomp cfg cos gwDocs gwQuery now st ops hb
  have hgo : prepare_ops.go st ops 0 [] [] []
      = .ok (results0, puts, searches, st1) := hp
  have h0 := prepare_go_get_results ops st 0 [] [] [] _ _ _ _ hgo rfl i ns key
    hop
  rw [Nat.zero_add] at h0
  have hdl : dataLookup st.data ns key = docLookup st ns key := rfl
  rw [hdl] at h0
  rcases hres with ⟨hnil, rfl⟩ | hbs
  · exact h0
  · have hidx : ∀ e ∈ searches, e.1 ≠ i := by
      intro e he hei
      rcases prepare_go_search_indices ops st 0 [] [] [] _ _ _ _ hgo e he with
        hmem | ⟨_, sop, hsop⟩
      · cases hmem
      · rw [Nat.sub_zero, hei, hop] at hsop
        injection hsop with hsop
        cases hsop
    rw [batch_search_untouched searches cos _ results0 results hbs i hidx]
    exact h0

/-- C5 witness: `c5_get_reads_pre_batch` on a concrete get-then-overwrite
batch over a store holding `{x: 1}`: the `Get` result is the pre-batch
document. -/
theorem c5_witness :
    [BResult.item itemV1, BResult.null][0]?
      = some (renderGet (docLookup stPre ["ns"] "k")) :=
  c5_get_reads_pre_batch none cos0 gwOne gwq0 7 stPre opsRW
    [BResult.item itemV1, BResult.null]
    ⟨[(["ns"], [("k", ⟨[("x", .num 2)], "k", ["ns"], 7, 7⟩)])], []⟩
    0 ["ns"] "k" rfl rfl

theorem emptyStore_WF : emptyStore.WF :=
  ⟨List.nodup_nil, fun _ hp => absurd hp (List.not_mem_nil _), List.nodup_nil,
    fun _ hp => absurd hp (List.not_mem_nil _),
    fun _ hp => absurd hp (List.not_mem_nil _)⟩

/-- C8: within one successful batch, multiple Puts to the same
`(namespace, key)` collapse to the last one submitted: the collapsed put
dict handed to the write phase maps the slot to the last Put alone, the
final document is exactly that Put's value under fresh timestamps (absent
when the last Put is a delete), and a deleting last Put leaves no
vector-index entries for the slot. -/
theorem c8_last_write_wins (cfg : Option EmbedConfig)
    (cos : Vec → List Vec → List ℚ) (gwDocs : List String → List Vec)
    (gwQuery : String → Vec) (now : Nat) (st : Store) (ops : List Op)
    (results : List BResult) (st' : Store) (ns : Ns) (key : String)
    (p : PutRec) (hwf : st.WF)
    (hlast : lastPutIn ops ns key = some p)
    (hb : batch cfg cos gwDocs gwQuery now st ops = .ok (results, st')) :
    docLookup st' ns key
        = (match p.value with
          | some v => some ⟨v, key, ns, now, now⟩
          | none => none) ∧
      (p.value = none → vecLookup st' ns key = none) ∧
      (∀ results0 puts searches st1,
        prepare_ops st ops = .ok (results0, puts, searches, st1) →
        alGet puts (ns, key) = some p) := by
  have he := batch_lastPut_effect cfg cos gwDocs gwQuery now st ops ns key p
    hwf hb hlast
  refine ⟨he.1, he.2, ?_⟩
  intro r0 puts searches st1 hp
  have hgo : prepare_ops.go st ops 0 [] [] []
      = .ok (r0, puts, searches, st1) := hp
  exact (prepare_go_puts ops st 0 [] [] [] _ _ _ _ hgo ns key).1 p hlast

/-- C8 witness: a concrete batch `put(ns,k,v1); put(ns,k,v2)` against the
empty store leaves `v2` in the document store, and the collapsed put dict
holds only the second put. -/
theorem c8_witness :
    docLookup c8st ["ns"] "k"
        = some ⟨[("x", .num 2)], "k", ["ns"], 5, 5⟩ ∧
      (c8p2.value = none → vecLookup c8st ["ns"] "k" = none) ∧
      (∀ results0 puts searches st1,
        prepare_ops emptyStore c8ops = .ok (results0, puts, searches, st1) →
        alGet puts (["ns"], "k") = some c8p2) :=
  c8_last_write_wins none cos0 gwOne gwq0 5 emptyStore c8ops
    [.null, .null] c8st ["ns"] "k" c8p2 emptyStore_WF rfl rfl

/-- C9: after a successful `put(ns, k, v)` batch, a `get(ns, k)` batch
returns the stored document with the put batch's timestamps; a subsequent
`put(ns, k, null)` batch succeeds and deletes both the document and every
vector-index entry for `(ns, k)`, so a further `get(ns, k)` returns
absent. -/
theorem c9_put_get_delete (cfg : Option EmbedConfig)
    (cos : Vec → List Vec → List ℚ) (gwDocs : List String → List Vec)
    (gwQuery : String → Vec) (now now2 now3 : Nat) (st : Store) (ns : Ns)
    (key : String) (v : Doc) (idx idx2 : Option Bool)
    (results1 : List BResult) (st1 : Store) (hwf : st.WF)
    (hb1 : batch cfg cos gwDocs gwQuery now st [.put ⟨ns, key, some v, idx⟩]
      = .ok (results1, st1)) :
    batch cfg cos gwDocs gwQuery now2 st1 [.get ns key]
        = .ok ([.item ⟨v, key, ns, now, now⟩],
            ⟨(alViv st1.data ns []).1, st1.inmem_store⟩) ∧
      ∃ st2,
        batch cfg cos gwDocs gwQuery now2 st1 [.put ⟨ns, key, none, idx2⟩]
          = .ok ([.null], st2) ∧
        docLookup st2 ns key = none ∧
        vecLookup st2 ns key = none ∧
        batch cfg cos gwDocs gwQuery now3 st2 [.get ns key]
          = .ok ([.null], ⟨(alViv st2.data ns []).1, st2.inmem_store⟩) := by
  have hlast : lastPutIn [Op.put ⟨ns, key, some v, idx⟩] ns key
      = some ⟨ns, key, some v, idx⟩ := by
    simp [lastPutIn]
  have heff := batch_lastPut_effect cfg cos gwDocs gwQuery now st _ ns key _
    hwf hb1 hlast
  have hdoc1 : docLookup st1 ns key = some ⟨v, key, ns, now, now⟩ := heff.1
  have hwf1 : st1.WF := batch_WF cfg cos gwDocs gwQuery now st _ hwf hb1
  constructor
  · rw [batch_single_get, dataLookup_al2, ← docLookup_al2, hdoc1]
    rfl
  · refine ⟨apply_put now2 st1 ((ns, key), ⟨ns, key, none, idx2⟩),
      batch_single_delete cfg cos gwDocs gwQuery now2 st1 ns key idx2,
      ?_, ?_, ?_⟩
    · rw [apply_put_doc now2 st1 (ns, key) _ ns key hwf1, if_pos rfl]
    · rw [apply_put_vec now2 st1 (ns, key) _ ns key hwf1, if_pos rfl]
    · have hd2 : docLookup (apply_put now2 st1
          ((ns, key), ⟨ns, key, none, idx2⟩)) ns key = none := by
        rw [apply_put_doc now2 st1 (ns, key) _ ns key hwf1, if_pos rfl]
      rw [batch_single_get, dataLookup_al2, ← docLookup_al2, hd2]
      rfl

/-- C9 witness: the round trip at concrete inputs: putting `{y: 3}` into
the empty store, getting it back, deleting it, and observing the absent
result and empty vector index. -/
theorem c9_witness :
    batch none cos0 gwOne gwq0 6 c9st1 [.get ["ns"] "k"]
        = .ok ([.item ⟨[("y", .num 3)], "k", ["ns"], 5, 5⟩],
            ⟨(alViv c9st1.data ["ns"] []).1, c9st1.inmem_store⟩) ∧
      ∃ st2,
        batch none cos0 gwOne gwq0 6 c9st1 [.put ⟨["ns"], "k", none, none⟩]
          = .ok ([.null], st2) ∧
        docLookup st2 ["ns"] "k" = none ∧
        vecLookup st2 ["ns"] "k" = none ∧
        batch none cos0 gwOne gwq0 7 st2 [.get ["ns"] "k"]
          = .ok ([.null], ⟨(alViv st2.data ["ns"] []).1, st2.inmem_store⟩) :=
  c9_put_get_delete none cos0 gwOne gwq0 5 6 7 emptyStore ["ns"] "k"
    [("y", .num 3)] none none [.null] c9st1 emptyStore_WF rfl

/-- C2: amended.  After every successful batch, every vector-index entry
holding at least one vector belongs to a live document (the `(ns, key)`
level of invariant 1 is preserved), and a batch whose last Put to a slot is
a delete removes both the document and all its vector entries.  (The
original claim's stronger purge clause — that an overwrite purges the
document's previous per-path vector entries before new ones are inserted —
is false, witness the counterexample.) -/
theorem c2_vector_liveness (cfg : Option EmbedConfig)
    (cos : Vec → List Vec → List ℚ) (gwDocs : List String → List Vec)
    (gwQuery : String → Vec) (now : Nat) (st : Store) (ops : List Op)
    (results : List BResult) (st' : Store)
    (hwf : st.WF) (hvl : VectorsLive st)
    (hb : batch cfg cos gwDocs gwQuery now st ops = .ok (results, st')) :
    VectorsLive st' ∧
      ∀ (ns : Ns) (key : String) (p : PutRec),
        lastPutIn ops ns key = some p → p.value = none →
        docLookup st' ns key = none ∧ vecLookup st' ns key = none := by
  constructor
  · obtain ⟨r0, puts, searches, st1, st2, hp, hres, hd2, hor, hst'⟩ :=
      batch_decomp cfg cos gwDocs gwQuery now st ops hb
    have hgo : prepare_ops.go st ops 0 [] [] []
        = .ok (r0, puts, searches, st1) := hp
    have hshape := prepare_go_puts_shape ops st 0 [] [] [] _ _ _ _ hgo
      (by intro e he; cases he) List.nodup_nil
    have hnd : NodupKeys puts := hshape.2
    have hwf1 : st1.WF := prepare_go_WF ops st 0 [] [] [] _ _ _ _ hgo hwf
    have hwf2 : st2.WF := WF_insert_step hd2
      (hor.imp id (fun hins => ⟨_, _, hins⟩)) hwf1
    have ext := prepare_go_ext ops st 0 [] [] [] _ _ _ _ hgo
    subst hst'
    intro ns key pd hvec hne
    by_cases hmem : (ns, key) ∈ puts.map Prod.fst
    · obtain ⟨p, hget⟩ := mem_fst_alGet hmem
      have heff := apply_put_ops_effect now puts st2 ns key p hwf2 hnd hget
      cases hv : p.value with
      | none =>
        have h0 : vecLookup (apply_put_ops now st2 puts) ns key = none := by
          rw [heff.2, hv]
        rw [h0] at hvec
        cases hvec
      | some v =>
        exact ⟨_, by rw [heff.1, hv]⟩
    · have hdf := apply_put_ops_doc_frame now puts st2 ns key hwf2 hmem
      have hvf := apply_put_ops_vec_frame now puts st2 ns key hwf2 hmem
      rw [hvf] at hvec
      have hvec1 : vecLookup st1 ns key = some pd := by
        rcases hor with rfl | hins
        · exact hvec
        · have hfold := insertinmem_ok hins
          have hall : ∀ pr ∈ List.zip
              (gwDocs ((extract_texts cfg puts).map Prod.fst))
              (allDests (extract_texts cfg puts)),
              (pr.2.1, pr.2.2.1) ≠ (ns, key) := by
            intro pr hpr heq
            apply hmem
            have hsnd : pr.2 ∈ allDests (extract_texts cfg puts) :=
              (List.of_mem_zip hpr).2
            obtain ⟨e, he, h1, h2, h3⟩ :=
              mem_allDests_extract cfg puts pr.2 hsnd
            have he1 := hshape.1 e he
            injection heq with hq1 hq2
            have hek : e.1 = (ns, key) := by
              apply Prod.ext
              · rw [← he1.1, ← h1, hq1]
              · rw [← he1.2, ← h2, hq2]
            rw [← hek]
            exact List.mem_map_of_mem Prod.fst he
          rw [vecLookup_al2, hfold,
            insert_fold_frame _ st1.inmem_store ns key hall,
            ← vecLookup_al2] at hvec
          exact hvec
      have hvec0 : vecLookup st ns key = some pd := by
        rw [vecLookup_al2, ← vecMapLookup_al2] at hvec1 ⊢
        rw [← vecMapLookup_vivExt ext.2 ns key]
        exact hvec1
      obtain ⟨it, hit⟩ := hvl ns key pd hvec0 hne
      refine ⟨it, ?_⟩
      rw [hdf, docLookup_al2, hd2, ← dataLookup_al2,
        dataLookup_vivExt ext.1, dataLookup_al2, ← docLookup_al2]
      exact hit
  · intro ns key p hlast hv
    have heff := batch_lastPut_effect cfg cos gwDocs gwQuery now st ops
      ns key p hwf hb hlast
    refine ⟨?_, heff.2 hv⟩
    rw [heff.1, hv]

/-- C2 witness: `c2_vector_liveness` on a concrete delete batch over a
one-document store: the resulting store keeps the liveness invariant and
the deleted slot holds neither a document nor vector entries. -/
theorem c2_witness :
    VectorsLive c2st ∧
      ∀ (ns : Ns) (key : String) (p : PutRec),
        lastPutIn [Op.put ⟨["ns"], "k", none, none⟩] ns key = some p →
        p.value = none →
        docLookup c2st ns key = none ∧ vecLookup c2st ns key = none :=
  c2_vector_liveness none cos0 gwOne gwq0 9 c9st1
    [.put ⟨["ns"], "k", none, none⟩] [.null] c2st
    (by refine ⟨?_, ?_, ?_, ?_, ?_⟩ <;> simp [c9st1, NodupKeys])
    (fun ns key pd h _ => nomatch h) rfl

/-- C10: amended.  A batch containing only a `Get` on a namespace holding no
documents (or only a delete Put to such a namespace) succeeds with a null
result and auto-vivifies an empty entry for that namespace in the document
map; a subsequent `ListNamespaces` whose well-typed conditions the
namespace satisfies includes it in its output — provided the window does
not cut it off (no `max_depth`, offset 0, and a limit at least the number
of map entries; the original claim's unconditional inclusion fails under
pagination, witness the counterexample). -/
theorem c10_vivified_namespace_listed (cfg : Option EmbedConfig)
    (cos : Vec → List Vec → List ℚ) (gwDocs : List String → List Vec)
    (gwQuery : String → Vec) (now : Nat) (st : Store) (ns : Ns)
    (key : String) (idx : Option Bool)
    (hns : alGet st.data ns = none) :
    (∃ stv, batch cfg cos gwDocs gwQuery now st [.get ns key]
        = .ok ([.null], stv) ∧ alGet stv.data ns = some []) ∧
    (∃ std, batch cfg cos gwDocs gwQuery now st [.put ⟨ns, key, none, idx⟩]
        = .ok ([.null], std) ∧ alGet std.data ns = some []) ∧
    (∀ st0 : Store, alGet st0.data ns = some [] →
      ∀ (conds : List MatchCond) (limit : Nat),
        (∀ c ∈ conds, CondTyped c) →
        (∀ c ∈ conds, specCondMatch c ns = true) →
        st0.data.length ≤ limit →
        ∀ l, handle_list_namespaces st0 conds none limit 0 = .ok l →
          ns ∈ l) := by
  have hviv : alGet ((alViv st.data ns []).1 : List (Ns × List (String × Item)))
      ns = some [] := by
    rw [alViv_of_none [] hns]
    rw [alGet_append_right hns]
    simp [alGet]
  refine ⟨⟨⟨(alViv st.data ns []).1, st.inmem_store⟩, ?_, hviv⟩, ?_, ?_⟩
  · rw [batch_single_get]
    have hdl : dataLookup st.data ns key = none := by
      rw [dataLookup_al2, al2, hns]
    rw [hdl]
    rfl
  · refine ⟨apply_put now st ((ns, key), ⟨ns, key, none, idx⟩),
      batch_single_delete cfg cos gwDocs gwQuery now st ns key idx, ?_⟩
    have hd : (apply_put now st ((ns, key), ⟨ns, key, none, idx⟩)).data
        = alSet (alViv st.data ns []).1 ns
            (alPop (alViv st.data ns []).2 key) := rfl
    rw [hd, alViv_of_none [] hns, alGet_alSet_self]
    rfl
  · intro st0 h0 conds limit htyped hmatch hlen l hl
    have hfil := filteredNss_typed conds htyped (st0.data.map Prod.fst)
    rw [handle_list_namespaces, hfil] at hl
    dsimp only at hl
    injection hl with hl
    subst hl
    have hmemf : ns ∈ (st0.data.map Prod.fst).filter
        (fun ns => conds.all fun c => specCondMatch c ns) := by
      rw [List.mem_filter]
      refine ⟨?_, ?_⟩
      · exact List.mem_map_of_mem Prod.fst (alGet_mem h0)
      · exact List.all_eq_true.mpr (fun c hc => hmatch c hc)
    have hmems : ns ∈ List.insertionSort nsLeP
        ((st0.data.map Prod.fst).filter
          (fun ns => conds.all fun c => specCondMatch c ns)) :=
      (List.perm_insertionSort nsLeP _).mem_iff.mpr hmemf
    have hlen2 : (List.insertionSort nsLeP
        ((st0.data.map Prod.fst).filter
          (fun ns => conds.all fun c => specCondMatch c ns))).length
        ≤ limit := by
      rw [(List.perm_insertionSort nsLeP _).length_eq]
      refine le_trans (List.length_filter_le _ _) ?_
      rw [List.length_map]
      exact hlen
    rw [List.drop_zero, List.take_of_length_le hlen2]
    exact hmems

/-- C10 witness: `c10_vivified_namespace_listed` at concrete inputs: a
lone `Get` (or lone delete Put) on namespace `a` of the empty store
vivifies the namespace, and any subsequent unpaginated well-typed
`ListNamespaces` it satisfies lists it. -/
theorem c10_witness :
    (∃ stv, batch none cos0 gwOne gwq0 3 emptyStore [.get ["a"] "k"]
        = .ok ([.null], stv) ∧ alGet stv.data ["a"] = some []) ∧
    (∃ std, batch none cos0 gwOne gwq0 3 emptyStore
          [.put ⟨["a"], "k", none, none⟩]
        = .ok ([.null], std) ∧ alGet std.data ["a"] = some []) ∧
    (∀ st0 : Store, alGet st0.data ["a"] = some [] →
      ∀ (conds : List MatchCond) (limit : Nat),
        (∀ c ∈ conds, CondTyped c) →
        (∀ c ∈ conds, specCondMatch c ["a"] = true) →
        st0.data.length ≤ limit →
        ∀ l, handle_list_namespaces st0 conds none limit 0 = .ok l →
          ["a"] ∈ l) :=
  c10_vivified_namespace_listed none cos0 gwOne gwq0 3 emptyStore
    ["a"] "k" none rfl

end MemStore

